import Mathlib

set_option maxRecDepth 8000

/-! Shallow embedding of `regd.registry.DecoratorRegistry` (src/regd/registry.py).

Function objects are identified by natural numbers (`FnId`).  The mutable
tracking metadata that the registry attaches to function objects — the keys
`native_function`, `decorator` and `decorators` of the attached map — is
modelled as an association list (`Heap`) from function identifiers to metadata
records.  Reading the map of a function that carries no record yields the empty
record (in the host language every function exposes the map, empty by default),
and `_make_portable` attaches an explicit empty record to a function that has
none.  All registry operations are modelled with explicit heap passing.

The `native_function` chain walk of `_get_native_function` is a while loop.  It
is run with fuel `chainBound st`, the number of heap entries carrying a
`native_function` link: any terminating run of the loop visits pairwise
distinct nodes, each of which except the last carries such a link, so a run
that exhausts this fuel never terminates; `none` models divergence of the loop
(and hence of the registry call performing it).  The relation `Reaches` is the
fuel-free big-step semantics of the same loop and `Terminates` its halting
predicate. -/

/-- Identifier of one function object of the host program. -/
abbrev FnId := Nat

/-- The tracking metadata attached to one function object: the
`native_function`, `decorator` and `decorators` keys of the attached map.
A key that is absent from the map is `none`. -/
structure Annots where
  native_function : Option FnId := none
  decorator : Option FnId := none
  decorators : Option (List FnId) := none
deriving DecidableEq, Repr

/-- The heap of attached metadata: which function objects currently carry a
metadata map, and its contents.  A function absent from the list has no map
attached to it yet. -/
abbrev Heap := List (FnId × Annots)

/-- First-binding lookup in the metadata heap. -/
def lookupA : Heap → FnId → Option Annots
  | [], _ => none
  | (m, a) :: st, n => if m = n then some a else lookupA st n

/-- Read the metadata map of a function: a function carrying no record reads
as the empty record. -/
def annots (st : Heap) (n : FnId) : Annots :=
  (lookupA st n).getD {}

/-- Overwrite (or append) the metadata record of one function. -/
def setAnnots : Heap → FnId → Annots → Heap
  | [], n, a => [(n, a)]
  | (m, b) :: st, n, a => if m = n then (n, a) :: st else (m, b) :: setAnnots st n a

/-- `DecoratorRegistry._make_portable`: attach an empty metadata map to the
function if it carries none. -/
def make_portable (st : Heap) (n : FnId) : Heap :=
  if (lookupA st n).isSome then st else setAnnots st n {}

/-- Number of heap entries carrying a `native_function` link.  Any terminating
run of the `_get_native_function` while loop takes at most this many steps. -/
def chainBound (st : Heap) : Nat :=
  (st.filter (fun p => p.2.native_function.isSome)).length

/-- The `_get_native_function` while loop with explicit fuel; `none` models a
run that does not terminate within the fuel. -/
def chainAux (st : Heap) : Nat → FnId → Option FnId
  | 0, n =>
    match (annots st n).native_function with
    | none => some n
    | some _ => none
  | fuel + 1, n =>
    match (annots st n).native_function with
    | none => some n
    | some m => chainAux st fuel m

/-- `DecoratorRegistry._get_native_function`: make the argument portable, then
follow its `native_function` chain to the end; `none` models divergence of the
while loop. -/
def get_native_function (st : Heap) (n : FnId) : Heap × Option FnId :=
  let st1 := make_portable st n
  (st1, chainAux st1 (chainBound st1) n)

/-- `DecoratorRegistry._set_decorator`. -/
def set_decorator (st : Heap) (n w : FnId) : Heap :=
  let st1 := make_portable st n
  setAnnots st1 n { annots st1 n with decorator := some w }

/-- `DecoratorRegistry._set_native_function`. -/
def set_native_function (st : Heap) (n target : FnId) : Heap :=
  let st1 := make_portable st n
  setAnnots st1 n { annots st1 n with native_function := some target }

/-- Add `w` at the end of the list when it is not already a member. -/
def appendDedup (l : List FnId) (w : FnId) : List FnId :=
  if w ∈ l then l else l ++ [w]

/-- `DecoratorRegistry._append_decorator`: resolve to the true original, then
add `w` to its `decorators` list when not already present.  The Bool is false
when the internal chain walk diverges (the registry call then never returns). -/
def append_decorator (st : Heap) (fn w : FnId) : Heap × Bool :=
  match get_native_function st fn with
  | (st1, none) => (st1, false)
  | (st1, some nat) =>
    let a := annots st1 nat
    (setAnnots st1 nat { a with decorators := some (appendDedup (a.decorators.getD []) w) }, true)

/-- `DecoratorRegistry.get_real_function`. -/
def get_real_function (st : Heap) (n : FnId) : Heap × Option FnId :=
  get_native_function st n

/-- `DecoratorRegistry.get_decorators`: resolve to the true original and read
its `decorators` list, empty when the key is absent; `none` models divergence
of the chain walk. -/
def get_decorators (st : Heap) (n : FnId) : Heap × Option (List FnId) :=
  match get_native_function st n with
  | (st1, none) => (st1, none)
  | (st1, some nat) => (st1, some ((annots st1 nat).decorators.getD []))

/-- `DecoratorRegistry.is_decorated_with`: membership of the decorator in
`get_decorators`. -/
def is_decorated_with (st : Heap) (n d : FnId) : Heap × Option Bool :=
  match get_decorators st n with
  | (st1, none) => (st1, none)
  | (st1, some ds) => (st1, some (decide (d ∈ ds)))

/-- The body of the wrapper `new_decorator` produced by
`DecoratorRegistry.decorator` for a registered native decorator, applied to a
function.  `w` is the wrapper itself, `fn` the function being decorated and
`fnDec` the object returned by `native_decorator(fn)` — supplied by the caller
since the native decorator is arbitrary host code (usually a fresh closure, but
possibly `fn` itself).  The result is the returned `fn_decorator`; `none`
models divergence of an internal chain walk (the call then never returns). -/
def applyDecorator (st : Heap) (w fn fnDec : FnId) : Heap × Option FnId :=
  match get_native_function st fn with
  | (st1, none) => (st1, none)
  | (st1, some nat) =>
    let st2 := set_decorator st1 fnDec w
    let st3 := set_native_function st2 fnDec nat
    let st4 := set_native_function st3 w nat
    match append_decorator st4 nat w with
    | (st5, true) => (st5, some fnDec)
    | (st5, false) => (st5, none)

/-- The body of the inner wrapper produced by one invocation of the outer
wrapper returned by `DecoratorRegistry.parametrized_decorator`.  `pw` is the
outer parametrized wrapper, `innerW` the inner per-invocation wrapper and
`fnDec` the object returned by the underlying native decorator.  Note the
asymmetry of the source: the `decorator` key of the result records the inner
wrapper, while the `decorators` list of the original and the native link on
the wrapper record the outer one. -/
def applyParametrizedDecorator (st : Heap) (pw innerW fn fnDec : FnId) : Heap × Option FnId :=
  match get_native_function st fn with
  | (st1, none) => (st1, none)
  | (st1, some nat) =>
    let st2 := set_decorator st1 fnDec innerW
    let st3 := set_native_function st2 fnDec nat
    let st4 := set_native_function st3 pw nat
    match append_decorator st4 nat pw with
    | (st5, true) => (st5, some fnDec)
    | (st5, false) => (st5, none)

/-- A value bound in a class body: a plain function, a staticmethod or
classmethod wrapper around a function, or any other object. -/
inductive Member where
  | func (n : FnId)
  | staticm (n : FnId)
  | classm (n : FnId)
  | other
deriving DecidableEq, Repr

/-- A class: its name, its own member dictionary, and a summary of the
inherited members, which are visible to attribute listing (`dir`) but absent
from the class's own dictionary. -/
structure PyClass where
  name : String
  dict : List (String × Member)
  inheritedDict : List (String × Member) := []
deriving DecidableEq, Repr

/-- A value bound at module top level. -/
inductive ModVal where
  | func (n : FnId)
  | staticm (n : FnId)
  | classm (n : FnId)
  | cls (c : PyClass)
  | other
deriving DecidableEq, Repr

/-- A module namespace: its dictionary of top-level bindings. -/
structure PyModule where
  dict : List (String × ModVal)
deriving DecidableEq, Repr

/-- First-binding lookup in a string-keyed dictionary (`dict.get`). -/
def lookupS {α : Type} : List (String × α) → String → Option α
  | [], _ => none
  | (m, a) :: l, n => if m = n then some a else lookupS l n

/-- The `type(fn) in [types.FunctionType, staticmethod, classmethod]` test of
the scans combined with the `_getfn` unwrapping of the two method-binding
forms: the function object underlying a function-like class member. -/
def unwrapMember : Member → Option FnId
  | Member.func n => some n
  | Member.staticm n => some n
  | Member.classm n => some n
  | Member.other => none

/-- Same test and unwrapping for a module-level value. -/
def unwrapModVal : ModVal → Option FnId
  | ModVal.func n => some n
  | ModVal.staticm n => some n
  | ModVal.classm n => some n
  | _ => none

/-- A class member seen as a module-level value (both are plain objects of the
host language). -/
def memberToModVal : Member → ModVal
  | Member.func n => ModVal.func n
  | Member.staticm n => ModVal.staticm n
  | Member.classm n => ModVal.classm n
  | Member.other => ModVal.other

/-- Argument accepted by `decorated_methods`: a class, or an instance whose
class the `while cls.__class__ is not type` loop resolves to. -/
inductive ClsOrInst where
  | cls (c : PyClass)
  | inst (c : PyClass)

/-- The class-resolution loop at the top of `decorated_methods`. -/
def resolveClass : ClsOrInst → PyClass
  | ClsOrInst.cls c => c
  | ClsOrInst.inst c => c

/-- The scanning loop of `decorated_methods` over the class's own dictionary:
only members that pass the `type(method) is types.FunctionType` test are
examined, so staticmethod and classmethod members are skipped.  The Bool is
false when a chain walk inside `get_decorators` diverges. -/
def decoratedMethodsAux (d : FnId) : Heap → List (String × Member) → Heap × List (String × Member) × Bool
  | st, [] => (st, [], true)
  | st, (nm, Member.func n) :: rest =>
    match get_decorators st n with
    | (st1, none) => (st1, [], false)
    | (st1, some ds) =>
      match decoratedMethodsAux d st1 rest with
      | (st2, out, ok) =>
        if d ∈ ds then (st2, (nm, Member.func n) :: out, ok) else (st2, out, ok)
  | st, _ :: rest => decoratedMethodsAux d st rest

/-- `DecoratorRegistry.decorated_methods`, drained to a list; `none` models a
run that never terminates. -/
def decorated_methods (st : Heap) (co : ClsOrInst) (d : FnId) : Heap × Option (List (String × Member)) :=
  match decoratedMethodsAux d st (resolveClass co).dict with
  | (st1, out, true) => (st1, some out)
  | (st1, _, false) => (st1, none)

/-- Lexicographic comparison of character lists. -/
def charListLe : List Char → List Char → Bool
  | [], _ => true
  | _ :: _, [] => false
  | a :: as, b :: bs => if a = b then charListLe as bs else decide (a < b)

/-- String comparison used to model the sorted enumeration of `dir`. -/
def strLeB (a b : String) : Bool :=
  charListLe a.data b.data

/-- Insertion step of the name sort. -/
def insertName (x : String) : List String → List String
  | [] => [x]
  | y :: l => if strLeB x y then x :: y :: l else y :: insertName x l

/-- Sorted enumeration of attribute names, modelling `dir`. -/
def sortNames : List String → List String
  | [] => []
  | x :: l => insertName x (sortNames l)

/-- `dir(module)`: the module's attribute names, sorted. -/
def dirModule (mod : PyModule) : List String :=
  sortNames (mod.dict.map Prod.fst)

/-- `dir(cls)`: the class's own and inherited attribute names, sorted.
Inherited names are listed, but the scans then look the name up in the class's
own dictionary only, so inherited members are never examined. -/
def dirClass (c : PyClass) : List String :=
  sortNames (c.dict.map Prod.fst ++ c.inheritedDict.map Prod.fst)

/-- Host-language faults that the module scans can raise. -/
inductive PyErr where
  | keyErr
  | attrErr
  | noTerm
deriving DecidableEq, Repr

/-- One entry yielded by a module scan: the qualified name paired with the
value found by looking the resolved name up again in the relevant dictionary
(`None` when the resolved name is not bound there). -/
abbrev ScanEntry := String × Option ModVal

/-- The inner `for cls_el in dir(fn)` loop of `all_decorated_module_functions`:
scan a class's attribute names for decorated function-like own members.
`seen` is the `module_names` dedup list, shared with the enclosing module scan.
The `PyErr` component reports the raise of `KeyError` when a function whose
`get_decorators` is non-empty carries no `native_function` key of its own, or
divergence of a chain walk. -/
def scanClassAux (nameOf : FnId → String) (c : PyClass) :
    Heap → List String → List String → Heap × List String × List ScanEntry × Option PyErr
  | st, seen, [] => (st, seen, [], none)
  | st, seen, nm :: rest =>
    match lookupS c.dict nm with
    | none => scanClassAux nameOf c st seen rest
    | some v =>
      match unwrapMember v with
      | none => scanClassAux nameOf c st seen rest
      | some fnid =>
        let st1 := make_portable st fnid
        match get_decorators st1 fnid with
        | (st2, none) => (st2, seen, [], some PyErr.noTerm)
        | (st2, some ds) =>
          if ds.length > 0 then
            match (annots st2 fnid).native_function with
            | none => (st2, seen, [], some PyErr.keyErr)
            | some natid =>
              let fname := nameOf natid
              if fname ∈ seen then scanClassAux nameOf c st2 seen rest
              else
                match scanClassAux nameOf c st2 (seen ++ [fname]) rest with
                | (st3, seen3, out, e) =>
                  (st3, seen3,
                    (c.name ++ "." ++ fname, (lookupS c.dict fname).map memberToModVal) :: out, e)
          else scanClassAux nameOf c st2 seen rest

/-- The main loop of `all_decorated_module_functions` over the sorted module
attribute names.  The function branch and the class-method branch share the
`module_names` dedup list.  `nameOf` gives each function object's `__name__`
attribute. -/
def scanModuleAux (nameOf : FnId → String) (mod : PyModule) (exM exF : Bool) :
    Heap → List String → List String → Heap × List String × List ScanEntry × Option PyErr
  | st, seen, [] => (st, seen, [], none)
  | st, seen, nm :: rest =>
    match lookupS mod.dict nm with
    | some (ModVal.cls c) =>
      if exM then scanModuleAux nameOf mod exM exF st seen rest
      else
        match scanClassAux nameOf c st seen (dirClass c) with
        | (st1, seen1, out1, some e) => (st1, seen1, out1, some e)
        | (st1, seen1, out1, none) =>
          match scanModuleAux nameOf mod exM exF st1 seen1 rest with
          | (st2, seen2, out2, e) => (st2, seen2, out1 ++ out2, e)
    | some v =>
      match unwrapModVal v with
      | none => scanModuleAux nameOf mod exM exF st seen rest
      | some fnid =>
        if exF then scanModuleAux nameOf mod exM exF st seen rest
        else
          let st1 := make_portable st fnid
          match get_decorators st1 fnid with
          | (st2, none) => (st2, seen, [], some PyErr.noTerm)
          | (st2, some ds) =>
            if ds.length > 0 then
              match (annots st2 fnid).native_function with
              | none => (st2, seen, [], some PyErr.keyErr)
              | some natid =>
                let fname := nameOf natid
                if fname ∈ seen then scanModuleAux nameOf mod exM exF st2 seen rest
                else
                  match scanModuleAux nameOf mod exM exF st2 (seen ++ [fname]) rest with
                  | (st3, seen3, out, e) =>
                    (st3, seen3, (fname, lookupS mod.dict fname) :: out, e)
            else scanModuleAux nameOf mod exM exF st2 seen rest
    | none => scanModuleAux nameOf mod exM exF st seen rest

/-- `DecoratorRegistry.all_decorated_module_functions`, drained to a list. -/
def all_decorated_module_functions (nameOf : FnId → String) (st : Heap) (mod : PyModule)
    (exM exF : Bool) : Heap × List ScanEntry × Option PyErr :=
  match scanModuleAux nameOf mod exM exF st [] (dirModule mod) with
  | (st1, _, out, e) => (st1, out, e)

/-- `get_decorators` as invoked by `module_functions_decorated_with` on a
yielded entry value, which can be any object.  `None` accepts no attached
metadata map, so `_make_portable` faults with `AttributeError`; classes and
other attribute-bearing objects carry no tracking keys of the heap and read as
undecorated. -/
def get_decorators_v (st : Heap) (v : Option ModVal) : Heap × Except PyErr (List FnId) :=
  match v with
  | none => (st, Except.error PyErr.attrErr)
  | some (ModVal.cls _) => (st, Except.ok [])
  | some ModVal.other => (st, Except.ok [])
  | some (ModVal.func n) =>
    match get_decorators st n with
    | (st1, none) => (st1, Except.error PyErr.noTerm)
    | (st1, some ds) => (st1, Except.ok ds)
  | some (ModVal.staticm n) =>
    match get_decorators st n with
    | (st1, none) => (st1, Except.error PyErr.noTerm)
    | (st1, some ds) => (st1, Except.ok ds)
  | some (ModVal.classm n) =>
    match get_decorators st n with
    | (st1, none) => (st1, Except.error PyErr.noTerm)
    | (st1, some ds) => (st1, Except.ok ds)

/-- The filtering loop of `module_functions_decorated_with`. -/
def filterDecorated (d : FnId) : Heap → List ScanEntry → Heap × List ScanEntry × Option PyErr
  | st, [] => (st, [], none)
  | st, (fname, v) :: rest =>
    match get_decorators_v st v with
    | (st1, Except.error e) => (st1, [], some e)
    | (st1, Except.ok ds) =>
      match filterDecorated d st1 rest with
      | (st2, out, e) =>
        if d ∈ ds then (st2, (fname, v) :: out, e) else (st2, out, e)

/-- `DecoratorRegistry.module_functions_decorated_with`: the full scan filtered
by membership of `d` in each entry value's `get_decorators`.  The two
generators interleave in the source; since every query step mutates the heap
only by attaching empty maps, running the scan to completion before filtering
yields the same data. -/
def module_functions_decorated_with (nameOf : FnId → String) (st : Heap) (mod : PyModule)
    (d : FnId) (exM exF : Bool) : Heap × List ScanEntry × Option PyErr :=
  match all_decorated_module_functions nameOf st mod exM exF with
  | (st1, out, some e) => (st1, out, some e)
  | (st1, out, none) => filterDecorated d st1 out

/-- Big-step semantics of terminating runs of the `_get_native_function` while
loop: from `n` the chain walk halts at `r`. -/
inductive Reaches (st : Heap) : FnId → FnId → Prop where
  | done {n : FnId} : (annots st n).native_function = none → Reaches st n n
  | step {n m r : FnId} :
      (annots st n).native_function = some m → Reaches st m r → Reaches st n r

/-- The chain walk from `n` terminates. -/
def Terminates (st : Heap) (n : FnId) : Prop :=
  ∃ r, Reaches st n r

/-- Every chain in the heap terminates. -/
def ChainsTerminate (st : Heap) : Prop :=
  ∀ n, Terminates st n

/-- Frame relation of the query operations: the tracking metadata of every
function reads unchanged, and the underlying heap changes at most by attaching
an empty map to a function that carried none. -/
def Preserves (st st' : Heap) : Prop :=
  (∀ n, annots st' n = annots st n) ∧
  (∀ n, lookupA st' n = lookupA st n ∨ (lookupA st n = none ∧ lookupA st' n = some {}))

/-- `Preserves` together with invariance of the chain-walk fuel: the relation
every query step establishes between the heap before and after it. -/
def Qpres (st st' : Heap) : Prop :=
  Preserves st st' ∧ chainBound st' = chainBound st

/-- Form of a function-branch entry of the module scan: the key is the resolved
(native) bare name and the value is the module binding of that name. -/
def FnEntryForm (mod : PyModule) (fname : String) (e : ScanEntry) : Prop :=
  e.1 = fname ∧ e.2 = lookupS mod.dict fname

/-- Form of a method-branch entry of the module scan: the key is
`ClassName.resolvedName` for a class bound in the module, the value the class's
own binding of the resolved name. -/
def MethodEntryForm (mod : PyModule) (fname : String) (e : ScanEntry) : Prop :=
  ∃ cn c, lookupS mod.dict cn = some (ModVal.cls c) ∧
    e.1 = c.name ++ "." ++ fname ∧ e.2 = (lookupS c.dict fname).map memberToModVal

/-- Every entry of the module scan is a function-branch entry (only when
functions are not excluded) or a method-branch entry (only when methods are
not excluded), keyed by its resolved name. -/
def EntryForm (mod : PyModule) (exM exF : Bool) (e : ScanEntry) (fname : String) : Prop :=
  (exF = false ∧ FnEntryForm mod fname e) ∨ (exM = false ∧ MethodEntryForm mod fname e)

/-- The function identifiers a module-level value contributes to the scan. -/
def modValIds : ModVal → List FnId
  | ModVal.func n => [n]
  | ModVal.staticm n => [n]
  | ModVal.classm n => [n]
  | ModVal.cls c => c.dict.filterMap (fun p => unwrapMember p.2)
  | ModVal.other => []

/-- All function identifiers the module scan can examine. -/
def scanIds (mod : PyModule) : List FnId :=
  (mod.dict.map (fun p => modValIds p.2)).flatten

/-- A function is safe for the module scan: its chain walk terminates, and if
its `get_decorators` is non-empty then it carries a `native_function` key of
its own (so the unguarded key read does not fault). -/
def scanOKb (st : Heap) (n : FnId) : Bool :=
  match (get_decorators st n).2 with
  | none => false
  | some ds => ds.isEmpty || (annots st n).native_function.isSome

/-- An entry value is safe for the filtering pass of
`module_functions_decorated_with`: it is not `None`, and if function-like its
chain walk terminates. -/
def valOKb (st : Heap) (v : Option ModVal) : Bool :=
  match v with
  | none => false
  | some (ModVal.func n) => ((get_decorators st n).2).isSome
  | some (ModVal.staticm n) => ((get_decorators st n).2).isSome
  | some (ModVal.classm n) => ((get_decorators st n).2).isSome
  | some _ => true

/-- Test used to characterise `decorated_methods`: a class-dictionary entry is
yielded exactly when it is a plain-function member whose `get_decorators`
contains the decorator. -/
def methodHit (st : Heap) (d : FnId) (p : String × Member) : Bool :=
  match p.2 with
  | Member.func n => decide (d ∈ ((get_decorators st n).2.getD []))
  | _ => false

/-- Heap after registering wrapper `1` and applying it to the plain function
`0`, the native decorator having returned the fresh function `2`. -/
def stC1 : Heap := (applyDecorator [] 1 0 2).1

/-- Heap after applying wrapper `1` to the plain function `0` when the native
decorator returned its argument unchanged (an identity decorator): the
application installs `native_function 0` on `0` itself. -/
def stLoop : Heap := (applyDecorator [] 1 0 0).1

/-- Heap after one invocation of a registered parametrized decorator: outer
wrapper `1`, inner per-invocation wrapper `2`, plain target `0`, native result
`3`. -/
def stP : Heap := (applyParametrizedDecorator [] 1 2 0 3).1

/-- A class declaring one staticmethod-bound member whose underlying function
is the tracked wrapper result `2` of `stC1`. -/
def clsStatic : PyClass :=
  { name := "C", dict := [("m", Member.staticm 2)] }

/-- A class declaring one plain-function member, the tracked wrapper result
`2` of `stC1`. -/
def clsPlain : PyClass :=
  { name := "D", dict := [("m", Member.func 2)] }

/-- A module binding the true original `0` of `stC1` at top level. -/
def modOrig : PyModule :=
  { dict := [("f", ModVal.func 0)] }

/-- A module binding the wrapper result `2` of `stC1` at top level under the
original function's name. -/
def modWrap : PyModule :=
  { dict := [("f", ModVal.func 2)] }

/-- Name attribute of the function objects of the concrete examples: the true
original `0` is called `f`. -/
def nmF : FnId → String :=
  fun n => if n = 0 then "f" else "g"


theorem lookupA_setAnnots_self (st : Heap) (n : FnId) (a : Annots) :
    lookupA (setAnnots st n a) n = some a := by
  induction st with
  | nil => simp [setAnnots, lookupA]
  | cons p st ih =>
    obtain ⟨m, b⟩ := p
    by_cases h : m = n <;> simp [setAnnots, lookupA, h, ih]

theorem lookupA_setAnnots_ne (st : Heap) (n m : FnId) (a : Annots) (h : m ≠ n) :
    lookupA (setAnnots st n a) m = lookupA st m := by
  induction st with
  | nil => simp [setAnnots, lookupA, Ne.symm h]
  | cons p st ih =>
    obtain ⟨k, b⟩ := p
    by_cases hk : k = n
    · subst hk
      simp [setAnnots, lookupA, Ne.symm h]
    · simp only [setAnnots, if_neg hk]
      simp [lookupA, ih]

theorem annots_setAnnots_self (st : Heap) (n : FnId) (a : Annots) :
    annots (setAnnots st n a) n = a := by
  simp [annots, lookupA_setAnnots_self]

theorem annots_setAnnots_ne (st : Heap) (n m : FnId) (a : Annots) (h : m ≠ n) :
    annots (setAnnots st n a) m = annots st m := by
  simp [annots, lookupA_setAnnots_ne st n m a h]

theorem setAnnots_of_not_mem (st : Heap) (n : FnId) (a : Annots) (h : lookupA st n = none) :
    setAnnots st n a = st ++ [(n, a)] := by
  induction st with
  | nil => simp [setAnnots]
  | cons p st ih =>
    obtain ⟨k, b⟩ := p
    by_cases hk : k = n
    · simp [lookupA, hk] at h
    · simp only [lookupA, hk, if_false] at h
      simp [setAnnots, hk, ih h]

theorem annots_make_portable (st : Heap) (n m : FnId) :
    annots (make_portable st n) m = annots st m := by
  unfold make_portable
  by_cases h : (lookupA st n).isSome
  · simp [h]
  · simp only [h, if_false]
    rcases Option.not_isSome_iff_eq_none.mp h with hn
    by_cases hm : m = n
    · subst hm
      simp [annots, lookupA_setAnnots_self, hn]
    · exact annots_setAnnots_ne st n m {} hm

theorem lookupA_make_portable_or (st : Heap) (n m : FnId) :
    lookupA (make_portable st n) m = lookupA st m ∨
      (lookupA st m = none ∧ lookupA (make_portable st n) m = some {}) := by
  unfold make_portable
  by_cases h : (lookupA st n).isSome
  · simp [h]
  · simp only [h, if_false]
    rcases Option.not_isSome_iff_eq_none.mp h with hn
    by_cases hm : m = n
    · subst hm
      exact Or.inr ⟨hn, lookupA_setAnnots_self st m {}⟩
    · exact Or.inl (lookupA_setAnnots_ne st n m {} hm)

theorem chainBound_make_portable (st : Heap) (n : FnId) :
    chainBound (make_portable st n) = chainBound st := by
  unfold make_portable
  by_cases h : (lookupA st n).isSome
  · simp [h]
  · rcases Option.not_isSome_iff_eq_none.mp h with hn
    simp only [h, if_false, setAnnots_of_not_mem st n {} hn]
    simp [chainBound, List.filter_append]

theorem Qpres_refl (st : Heap) : Qpres st st :=
  ⟨⟨fun _ => rfl, fun _ => Or.inl rfl⟩, rfl⟩

theorem Qpres_trans {st1 st2 st3 : Heap} (h12 : Qpres st1 st2) (h23 : Qpres st2 st3) :
    Qpres st1 st3 := by
  obtain ⟨⟨ha12, hl12⟩, hb12⟩ := h12
  obtain ⟨⟨ha23, hl23⟩, hb23⟩ := h23
  refine ⟨⟨fun n => (ha23 n).trans (ha12 n), fun n => ?_⟩, hb23.trans hb12⟩
  rcases hl12 n with h1 | ⟨h1, h1'⟩
  · rcases hl23 n with h2 | ⟨h2, h2'⟩
    · exact Or.inl (h2.trans h1)
    · exact Or.inr ⟨h1 ▸ h2, h2'⟩
  · rcases hl23 n with h2 | ⟨h2, h2'⟩
    · exact Or.inr ⟨h1, h2.trans h1'⟩
    · rw [h1'] at h2
      cases h2

theorem Qpres_make_portable (st : Heap) (n : FnId) : Qpres st (make_portable st n) :=
  ⟨⟨annots_make_portable st n, lookupA_make_portable_or st n⟩, chainBound_make_portable st n⟩

theorem chainAux_congr {st st' : Heap} (h : ∀ x, annots st' x = annots st x) :
    ∀ fuel n, chainAux st' fuel n = chainAux st fuel n := by
  intro fuel
  induction fuel with
  | zero =>
    intro n
    simp [chainAux, h n]
  | succ f ih =>
    intro n
    simp only [chainAux, h n]
    cases (annots st n).native_function with
    | none => rfl
    | some m => exact ih m

theorem chain_done {st : Heap} {n : FnId} (h : (annots st n).native_function = none)
    (fuel : Nat) : chainAux st fuel n = some n := by
  cases fuel <;> simp [chainAux, h]

theorem chain_one {st : Heap} {n m : FnId} (h1 : (annots st n).native_function = some m)
    (h2 : (annots st m).native_function = none) {fuel : Nat} (hf : 0 < fuel) :
    chainAux st fuel n = some m := by
  cases fuel with
  | zero => exact absurd hf (by simp)
  | succ f => simp [chainAux, h1, chain_done h2]

theorem chainAux_last {st : Heap} :
    ∀ {fuel n r : FnId}, chainAux st fuel n = some r → (annots st r).native_function = none := by
  intro fuel
  induction fuel with
  | zero =>
    intro n r h
    revert h
    unfold chainAux
    cases hx : (annots st n).native_function with
    | none => intro h; cases h; exact hx
    | some m => intro h; cases h
  | succ f ih =>
    intro n r h
    revert h
    unfold chainAux
    cases hx : (annots st n).native_function with
    | none => intro h; cases h; exact hx
    | some m => exact ih

theorem chain_self_loop {st : Heap} {n : FnId} (h : (annots st n).native_function = some n) :
    ∀ fuel, chainAux st fuel n = none := by
  intro fuel
  induction fuel with
  | zero => simp [chainAux, h]
  | succ f ih => simp [chainAux, h, ih]

theorem lookupA_mem {st : Heap} {n : FnId} {a : Annots} (h : lookupA st n = some a) :
    (n, a) ∈ st := by
  induction st with
  | nil => cases h
  | cons p st ih =>
    obtain ⟨k, b⟩ := p
    by_cases hk : k = n
    · subst hk
      simp [lookupA] at h
      simp [h]
    · simp only [lookupA, hk, if_false] at h
      exact List.mem_cons_of_mem _ (ih h)

theorem chainBound_pos {st : Heap} {n m : FnId}
    (h : (annots st n).native_function = some m) : 0 < chainBound st := by
  rcases hl : lookupA st n with _ | a
  · simp [annots, hl] at h
  · have ha : a = annots st n := by simp [annots, hl]
    have hmem : (n, a) ∈ st.filter (fun p => p.2.native_function.isSome) := by
      refine List.mem_filter.mpr ⟨lookupA_mem hl, ?_⟩
      rw [ha, h]
      rfl
    have : st.filter (fun p => p.2.native_function.isSome) ≠ [] :=
      List.ne_nil_of_mem hmem
    exact List.length_pos.mpr this

theorem reaches_of_chainAux {st : Heap} :
    ∀ {fuel : Nat} {n r : FnId}, chainAux st fuel n = some r → Reaches st n r := by
  intro fuel
  induction fuel with
  | zero =>
    intro n r h
    revert h
    unfold chainAux
    cases hx : (annots st n).native_function with
    | none => intro h; cases h; exact Reaches.done hx
    | some m => intro h; cases h
  | succ f ih =>
    intro n r h
    revert h
    unfold chainAux
    cases hx : (annots st n).native_function with
    | none => intro h; cases h; exact Reaches.done hx
    | some m => intro h; exact Reaches.step hx (ih h)

theorem Reaches_congr {st st' : Heap} (h : ∀ x, annots st' x = annots st x)
    {n r : FnId} (hr : Reaches st n r) : Reaches st' n r := by
  induction hr with
  | done hx => exact Reaches.done (by rw [h]; exact hx)
  | step hx _ ih => exact Reaches.step (by rw [h]; exact hx) ih

theorem get_native_function_eq (st : Heap) (n : FnId) :
    get_native_function st n = (make_portable st n, chainAux st (chainBound st) n) := by
  simp only [get_native_function]
  rw [chainBound_make_portable, chainAux_congr (annots_make_portable st n)]

theorem get_decorators_eq (st : Heap) (n : FnId) :
    get_decorators st n =
      (make_portable st n,
        (chainAux st (chainBound st) n).map (fun nat => (annots st nat).decorators.getD [])) := by
  unfold get_decorators
  rw [get_native_function_eq]
  cases h : chainAux st (chainBound st) n with
  | none => rfl
  | some nat => simp [annots_make_portable]

theorem is_decorated_with_eq (st : Heap) (n d : FnId) :
    is_decorated_with st n d =
      (make_portable st n, ((get_decorators st n).2).map (fun ds => decide (d ∈ ds))) := by
  unfold is_decorated_with
  rw [get_decorators_eq]
  cases h : chainAux st (chainBound st) n <;> rfl

theorem gd_done {st : Heap} {n : FnId} (h : (annots st n).native_function = none) :
    (get_decorators st n).2 = some ((annots st n).decorators.getD []) := by
  rw [get_decorators_eq]
  simp [chain_done h]

theorem gd_one {st : Heap} {n m : FnId} (h1 : (annots st n).native_function = some m)
    (h2 : (annots st m).native_function = none) :
    (get_decorators st n).2 = some ((annots st m).decorators.getD []) := by
  rw [get_decorators_eq]
  simp [chain_one h1 h2 (chainBound_pos h1)]

theorem grf_done {st : Heap} {n : FnId} (h : (annots st n).native_function = none) :
    (get_real_function st n).2 = some n := by
  rw [get_real_function, get_native_function_eq]
  simp [chain_done h]

theorem grf_one {st : Heap} {n m : FnId} (h1 : (annots st n).native_function = some m)
    (h2 : (annots st m).native_function = none) :
    (get_real_function st n).2 = some m := by
  rw [get_real_function, get_native_function_eq]
  simp [chain_one h1 h2 (chainBound_pos h1)]

theorem idw_snd (st : Heap) (n d : FnId) :
    (is_decorated_with st n d).2 = ((get_decorators st n).2).map (fun ds => decide (d ∈ ds)) := by
  rw [is_decorated_with_eq]

theorem gd_congr {st st' : Heap} (h : Qpres st st') (n : FnId) :
    (get_decorators st' n).2 = (get_decorators st n).2 := by
  obtain ⟨⟨ha, _⟩, hb⟩ := h
  rw [get_decorators_eq, get_decorators_eq, hb, chainAux_congr ha]
  cases chainAux st (chainBound st) n <;> simp [ha]

theorem annots_congr_native {st st' : Heap} (h : Qpres st st') (n : FnId) :
    (annots st' n).native_function = (annots st n).native_function := by
  rw [h.1.1 n]

theorem annots_set_decorator_self (st : Heap) (n w : FnId) :
    annots (set_decorator st n w) n = { annots st n with decorator := some w } := by
  simp [set_decorator, annots_setAnnots_self, annots_make_portable]

theorem annots_set_decorator_ne (st : Heap) (n w m : FnId) (h : m ≠ n) :
    annots (set_decorator st n w) m = annots st m := by
  simp [set_decorator, annots_setAnnots_ne _ _ _ _ h, annots_make_portable]

theorem annots_set_native_self (st : Heap) (n t : FnId) :
    annots (set_native_function st n t) n = { annots st n with native_function := some t } := by
  simp [set_native_function, annots_setAnnots_self, annots_make_portable]

theorem annots_set_native_ne (st : Heap) (n t m : FnId) (h : m ≠ n) :
    annots (set_native_function st n t) m = annots st m := by
  simp [set_native_function, annots_setAnnots_ne _ _ _ _ h, annots_make_portable]

theorem append_decorator_spec (st : Heap) (n w : FnId)
    (hn : (annots st n).native_function = none) :
    ∃ st', append_decorator st n w = (st', true) ∧
      annots st' n = { annots st n with
        decorators := some (appendDedup ((annots st n).decorators.getD []) w) } ∧
      ∀ m, m ≠ n → annots st' m = annots st m := by
  unfold append_decorator
  rw [get_native_function_eq, chain_done hn]
  refine ⟨_, rfl, ?_, ?_⟩
  · rw [annots_setAnnots_self]
    simp [annots_make_portable]
  · intro m hm
    rw [annots_setAnnots_ne _ _ _ _ hm, annots_make_portable]

theorem applyDecorator_spec (st : Heap) (w fn fd nat : FnId)
    (hch : chainAux st (chainBound st) fn = some nat)
    (hfd : fd ≠ nat) (hw : w ≠ nat) :
    ∃ st', applyDecorator st w fn fd = (st', some fd) ∧
      (∀ m, m ≠ fd → m ≠ w → m ≠ nat → annots st' m = annots st m) ∧
      annots st' nat = { annots st nat with
        decorators := some (appendDedup ((annots st nat).decorators.getD []) w) } ∧
      annots st' fd = { annots st fd with decorator := some w, native_function := some nat } ∧
      (w ≠ fd → annots st' w = { annots st w with native_function := some nat }) := by
  unfold applyDecorator
  rw [get_native_function_eq, hch]
  have h4 : ∀ m, m ≠ fd → m ≠ w →
      annots (set_native_function (set_native_function
        (set_decorator (make_portable st fn) fd w) fd nat) w nat) m = annots st m := by
    intro m h1 h2
    rw [annots_set_native_ne _ _ _ _ h2, annots_set_native_ne _ _ _ _ h1,
      annots_set_decorator_ne _ _ _ _ h1, annots_make_portable]
  have h4fd : annots (set_native_function (set_native_function
      (set_decorator (make_portable st fn) fd w) fd nat) w nat) fd =
      { annots st fd with decorator := some w, native_function := some nat } := by
    by_cases hwfd : w = fd
    · subst hwfd
      rw [annots_set_native_self, annots_set_native_self, annots_set_decorator_self,
        annots_make_portable]
    · rw [annots_set_native_ne _ _ _ _ (Ne.symm hwfd), annots_set_native_self,
        annots_set_decorator_self, annots_make_portable]
  have h4w : w ≠ fd → annots (set_native_function (set_native_function
      (set_decorator (make_portable st fn) fd w) fd nat) w nat) w =
      { annots st w with native_function := some nat } := by
    intro hwfd
    rw [annots_set_native_self, annots_set_native_ne _ _ _ _ hwfd,
      annots_set_decorator_ne _ _ _ _ hwfd, annots_make_portable]
  have h4nat : annots (set_native_function (set_native_function
      (set_decorator (make_portable st fn) fd w) fd nat) w nat) nat = annots st nat :=
    h4 nat (Ne.symm hfd) (Ne.symm hw)
  have hnn : (annots (set_native_function (set_native_function
      (set_decorator (make_portable st fn) fd w) fd nat) w nat) nat).native_function = none := by
    rw [h4nat]
    exact chainAux_last hch
  obtain ⟨st5, he, hnat5, hoth5⟩ := append_decorator_spec _ nat w hnn
  rw [h4nat] at hnat5
  refine ⟨st5, ?_, ?_, hnat5, ?_, ?_⟩
  · simp only [he]
  · intro m h1 h2 h3
    rw [hoth5 m h3, h4 m h1 h2]
  · rw [hoth5 fd hfd, h4fd]
  · intro hwfd
    rw [hoth5 w hw, h4w hwfd]

theorem applyParametrizedDecorator_spec (st : Heap) (pw iw fn fd nat : FnId)
    (hch : chainAux st (chainBound st) fn = some nat)
    (hfd : fd ≠ nat) (hpw : pw ≠ nat) :
    ∃ st', applyParametrizedDecorator st pw iw fn fd = (st', some fd) ∧
      (∀ m, m ≠ fd → m ≠ pw → m ≠ nat → annots st' m = annots st m) ∧
      annots st' nat = { annots st nat with
        decorators := some (appendDedup ((annots st nat).decorators.getD []) pw) } ∧
      annots st' fd = { annots st fd with decorator := some iw, native_function := some nat } ∧
      (pw ≠ fd → annots st' pw = { annots st pw with native_function := some nat }) := by
  unfold applyParametrizedDecorator
  rw [get_native_function_eq, hch]
  have h4 : ∀ m, m ≠ fd → m ≠ pw →
      annots (set_native_function (set_native_function
        (set_decorator (make_portable st fn) fd iw) fd nat) pw nat) m = annots st m := by
    intro m h1 h2
    rw [annots_set_native_ne _ _ _ _ h2, annots_set_native_ne _ _ _ _ h1,
      annots_set_decorator_ne _ _ _ _ h1, annots_make_portable]
  have h4fd : annots (set_native_function (set_native_function
      (set_decorator (make_portable st fn) fd iw) fd nat) pw nat) fd =
      { annots st fd with decorator := some iw, native_function := some nat } := by
    by_cases hwfd : pw = fd
    · subst hwfd
      rw [annots_set_native_self, annots_set_native_self, annots_set_decorator_self,
        annots_make_portable]
    · rw [annots_set_native_ne _ _ _ _ (Ne.symm hwfd), annots_set_native_self,
        annots_set_decorator_self, annots_make_portable]
  have h4w : pw ≠ fd → annots (set_native_function (set_native_function
      (set_decorator (make_portable st fn) fd iw) fd nat) pw nat) pw =
      { annots st pw with native_function := some nat } := by
    intro hwfd
    rw [annots_set_native_self, annots_set_native_ne _ _ _ _ hwfd,
      annots_set_decorator_ne _ _ _ _ hwfd, annots_make_portable]
  have h4nat : annots (set_native_function (set_native_function
      (set_decorator (make_portable st fn) fd iw) fd nat) pw nat) nat = annots st nat :=
    h4 nat (Ne.symm hfd) (Ne.symm hpw)
  have hnn : (annots (set_native_function (set_native_function
      (set_decorator (make_portable st fn) fd iw) fd nat) pw nat) nat).native_function = none := by
    rw [h4nat]
    exact chainAux_last hch
  obtain ⟨st5, he, hnat5, hoth5⟩ := append_decorator_spec _ nat pw hnn
  rw [h4nat] at hnat5
  refine ⟨st5, ?_, ?_, hnat5, ?_, ?_⟩
  · simp only [he]
  · intro m h1 h2 h3
    rw [hoth5 m h3, h4 m h1 h2]
  · rw [hoth5 fd hfd, h4fd]
  · intro hwfd
    rw [hoth5 pw hpw, h4w hwfd]

theorem appendDedup_nil (w : FnId) : appendDedup [] w = [w] := by
  simp [appendDedup]

theorem appendDedup_of_mem {l : List FnId} {w : FnId} (h : w ∈ l) : appendDedup l w = l := by
  simp [appendDedup, h]

theorem appendDedup_of_not_mem {l : List FnId} {w : FnId} (h : ¬ w ∈ l) :
    appendDedup l w = l ++ [w] := by
  simp [appendDedup, h]

theorem mem_appendDedup (l : List FnId) (w : FnId) : w ∈ appendDedup l w := by
  by_cases h : w ∈ l <;> simp [appendDedup, h]

/-- C1: applying a registered decorator-wrapper `w` to a plain function `f`
(no `native_function` link of its own; the native decorator returns an object
`fd` distinct from `f`, and the wrapper is not `f`) and then calling
`get_real_function` on the result returns `f` itself — the strongest form of
behavioural equivalence — and `is_decorated_with` of the result and `w`
returns true. -/
theorem C1_decorate_get_real_is_decorated (st : Heap) (w f fd : FnId)
    (hf : (annots st f).native_function = none)
    (h1 : fd ≠ f) (h2 : w ≠ f) :
    ∃ st', applyDecorator st w f fd = (st', some fd) ∧
      (get_real_function st' fd).2 = some f ∧
      (is_decorated_with st' fd w).2 = some true := by
  obtain ⟨st', he, hoth, hnat, hfd, hw⟩ :=
    applyDecorator_spec st w f fd f (chain_done hf _) h1 h2
  have hfdn : (annots st' fd).native_function = some f := by rw [hfd]
  have hfn : (annots st' f).native_function = none := by rw [hnat]; exact hf
  refine ⟨st', he, grf_one hfdn hfn, ?_⟩
  rw [idw_snd, gd_one hfdn hfn, hnat]
  simp [mem_appendDedup]

theorem C1_decorate_get_real_is_decorated_witness :
    ∃ st', applyDecorator [] 1 0 2 = (st', some 2) ∧
      (get_real_function st' 2).2 = some 0 ∧
      (is_decorated_with st' 2 1).2 = some true :=
  C1_decorate_get_real_is_decorated [] 1 0 2 rfl (by decide) (by decide)

/-- C8: a function whose metadata map is empty — one never touched by a
registered decorator-wrapper, including functions decorated only by
unregistered decorators, which leave no metadata — has `get_decorators` empty,
`is_decorated_with` false for every decorator, and `get_real_function`
returning the function itself. -/
theorem C8_untracked_function (st : Heap) (fn : FnId) (h : annots st fn = {}) :
    (get_decorators st fn).2 = some [] ∧
    (∀ d, (is_decorated_with st fn d).2 = some false) ∧
    (get_real_function st fn).2 = some fn := by
  have hn : (annots st fn).native_function = none := by rw [h]
  refine ⟨?_, ?_, grf_done hn⟩
  · rw [gd_done hn, h]
    rfl
  · intro d
    rw [idw_snd, gd_done hn, h]
    rfl

theorem C8_untracked_function_witness :
    (get_decorators [] 0).2 = some [] ∧
    (is_decorated_with [] 0 5).2 = some false ∧
    (get_real_function [] 0).2 = some 0 :=
  ⟨(C8_untracked_function [] 0 rfl).1,
   (C8_untracked_function [] 0 rfl).2.1 5,
   (C8_untracked_function [] 0 rfl).2.2⟩

/-- C7 counterexample: one invocation of a registered parametrized decorator
(outer wrapper `1`, inner per-invocation wrapper `2`) applied to the plain
function `0`, the native decorator returning `3`.  The `decorator` metadata
key of the produced function records the inner wrapper `2`, not the outer
parametrized wrapper `1` as the claim states; only the `decorators` list of
the original records the outer wrapper. -/
theorem C7_counterexample :
    (applyParametrizedDecorator [] 1 2 0 3).2 = some 3 ∧
    (annots stP 3).decorator = some 2 ∧
    ¬ (annots stP 3).decorator = some 1 ∧
    (annots stP 0).decorators = some [1] := by
  decide

/-- C7 amended: for a registered parametrized decorator, the identity recorded
in the `decorators` list of the original is the outer parametrized wrapper
`pw`, so two applications of `pw` with different arguments (distinct inner
wrappers `iw1`, `iw2`) to plain functions are indistinguishable to
`get_decorators` and `is_decorated_with` — while the `decorator` key of each
produced function records the per-invocation inner wrapper, not `pw`. -/
theorem C7_amended_outer_identity (st : Heap) (pw iw1 iw2 f g fd1 fd2 : FnId)
    (hf : annots st f = {}) (hg : annots st g = {})
    (hnd : [pw, f, g, fd1, fd2].Nodup) :
    ∃ st1 st2,
      applyParametrizedDecorator st pw iw1 f fd1 = (st1, some fd1) ∧
      applyParametrizedDecorator st1 pw iw2 g fd2 = (st2, some fd2) ∧
      (get_decorators st2 fd1).2 = some [pw] ∧
      (get_decorators st2 fd2).2 = some [pw] ∧
      (get_decorators st2 fd1).2 = (get_decorators st2 fd2).2 ∧
      (is_decorated_with st2 fd1 pw).2 = some true ∧
      (is_decorated_with st2 fd2 pw).2 = some true ∧
      (annots st2 fd1).decorator = some iw1 ∧
      (annots st2 fd2).decorator = some iw2 := by
  simp [List.nodup_cons] at hnd
  obtain ⟨⟨hpf, hpg, hpfd1, hpfd2⟩, ⟨hfg, hffd1, hffd2⟩, ⟨hgfd1, hgfd2⟩, hfd12⟩ := hnd
  have hfn : (annots st f).native_function = none := by rw [hf]
  obtain ⟨st1, he1, hoth1, hnat1, hfd1, hw1⟩ :=
    applyParametrizedDecorator_spec st pw iw1 f fd1 f (chain_done hfn _)
      (Ne.symm hffd1) hpf
  have h1g : annots st1 g = {} := by
    rw [hoth1 g hgfd1 (Ne.symm hpg) (Ne.symm hfg)]
    exact hg
  have h1gn : (annots st1 g).native_function = none := by rw [h1g]
  obtain ⟨st2, he2, hoth2, hnat2, hfd2, hw2⟩ :=
    applyParametrizedDecorator_spec st1 pw iw2 g fd2 g (chain_done h1gn _)
      (Ne.symm hgfd2) hpg
  have h2f : annots st2 f = annots st1 f :=
    hoth2 f hffd2 (Ne.symm hpf) hfg
  have h2fd1 : annots st2 fd1 = annots st1 fd1 :=
    hoth2 fd1 hfd12 (Ne.symm hpfd1) (Ne.symm hgfd1)
  have h2fn : (annots st2 f).native_function = none := by
    rw [h2f, hnat1, hf]
  have h2fd1n : (annots st2 fd1).native_function = some f := by
    rw [h2fd1, hfd1]
  have h2fd2n : (annots st2 fd2).native_function = some g := by
    rw [hfd2]
  have h2gn : (annots st2 g).native_function = none := by
    rw [hnat2, h1g]
  have hfds : (annots st2 f).decorators.getD [] = [pw] := by
    rw [h2f, hnat1, hf]
    simp [appendDedup_nil]
  have hgds : (annots st2 g).decorators.getD [] = [pw] := by
    rw [hnat2, h1g]
    simp [appendDedup_nil]
  have hd1 : (get_decorators st2 fd1).2 = some [pw] := by
    rw [gd_one h2fd1n h2fn, hfds]
  have hd2 : (get_decorators st2 fd2).2 = some [pw] := by
    rw [gd_one h2fd2n h2gn, hgds]
  refine ⟨st1, st2, he1, he2, hd1, hd2, hd1.trans hd2.symm, ?_, ?_, ?_, ?_⟩
  · rw [idw_snd, hd1]
    simp
  · rw [idw_snd, hd2]
    simp
  · rw [h2fd1, hfd1]
  · rw [hfd2]

theorem C7_amended_outer_identity_witness :
    ∃ st1 st2,
      applyParametrizedDecorator [] 1 10 2 4 = (st1, some 4) ∧
      applyParametrizedDecorator st1 1 11 3 5 = (st2, some 5) ∧
      (get_decorators st2 4).2 = some [1] ∧
      (get_decorators st2 5).2 = some [1] ∧
      (get_decorators st2 4).2 = (get_decorators st2 5).2 ∧
      (is_decorated_with st2 4 1).2 = some true ∧
      (is_decorated_with st2 5 1).2 = some true ∧
      (annots st2 4).decorator = some 10 ∧
      (annots st2 5).decorator = some 11 :=
  C7_amended_outer_identity [] 1 10 11 2 3 4 5 rfl rfl (by decide)

/-- C9 counterexample: the claim says the inner wrapper produced by a
parametrized decorator carries a `native_function` entry for the true original
of its target after being applied.  In `stP` the inner wrapper `2` was applied
to the plain function `0` (producing `3`), yet `2` carries no `native_function`
entry and `get_real_function` returns `2` itself; the source installs the
entry on the outer parametrized wrapper instead. -/
theorem C9_counterexample :
    (applyParametrizedDecorator [] 1 2 0 3).2 = some 3 ∧
    (annots stP 2).native_function = none ∧
    (get_real_function stP 2).2 = some 2 ∧
    (get_real_function stP 3).2 = some 0 := by
  decide

/-- C9 amended: after a wrapper `w` returned by `decorator` is applied to a
function, `w` itself carries a `native_function` entry for the target's true
original `nat`, so `get_real_function w` returns `nat`; each subsequent
application overwrites the entry with the new target's true original.  For
`parametrized_decorator` it is the outer parametrized wrapper, not the inner
per-invocation wrapper, that carries the entry: the inner wrapper's metadata
is untouched. -/
theorem C9_amended_wrapper_link :
    (∀ st w fn fd nat st',
      chainAux st (chainBound st) fn = some nat → fd ≠ nat → w ≠ nat →
      applyDecorator st w fn fd = (st', some fd) →
      (annots st' w).native_function = some nat ∧ (get_real_function st' w).2 = some nat) ∧
    (∀ st w fn fd nat natPrev st',
      (annots st w).native_function = some natPrev →
      chainAux st (chainBound st) fn = some nat → fd ≠ nat → w ≠ nat →
      applyDecorator st w fn fd = (st', some fd) →
      (annots st' w).native_function = some nat) ∧
    (∀ st pw iw fn fd nat st',
      chainAux st (chainBound st) fn = some nat → fd ≠ nat → pw ≠ nat →
      applyParametrizedDecorator st pw iw fn fd = (st', some fd) →
      (annots st' pw).native_function = some nat ∧
      (get_real_function st' pw).2 = some nat ∧
      (iw ≠ fd → iw ≠ pw → iw ≠ nat → annots st' iw = annots st iw)) := by
  have key : ∀ st w fn fd nat st',
      chainAux st (chainBound st) fn = some nat → fd ≠ nat → w ≠ nat →
      applyDecorator st w fn fd = (st', some fd) →
      (annots st' w).native_function = some nat ∧ (get_real_function st' w).2 = some nat := by
    intro st w fn fd nat st' hch hfd hw happ
    obtain ⟨st2, he, hoth, hnat, hfdc, hwc⟩ := applyDecorator_spec st w fn fd nat hch hfd hw
    rw [happ] at he
    obtain ⟨rfl, -⟩ := Prod.mk.injEq .. ▸ he
    have hwn : (annots st' w).native_function = some nat := by
      by_cases hwfd : w = fd
      · subst hwfd
        rw [hfdc]
      · rw [hwc hwfd]
    have hnn : (annots st' nat).native_function = none := by
      rw [hnat]
      exact chainAux_last hch
    exact ⟨hwn, grf_one hwn hnn⟩
  refine ⟨key, fun st w fn fd nat natPrev st' _ hch hfd hw happ =>
    (key st w fn fd nat st' hch hfd hw happ).1, ?_⟩
  intro st pw iw fn fd nat st' hch hfd hpw happ
  obtain ⟨st2, he, hoth, hnat, hfdc, hwc⟩ :=
    applyParametrizedDecorator_spec st pw iw fn fd nat hch hfd hpw
  rw [happ] at he
  obtain ⟨rfl, -⟩ := Prod.mk.injEq .. ▸ he
  have hwn : (annots st' pw).native_function = some nat := by
    by_cases hwfd : pw = fd
    · subst hwfd
      rw [hfdc]
    · rw [hwc hwfd]
  have hnn : (annots st' nat).native_function = none := by
    rw [hnat]
    exact chainAux_last hch
  exact ⟨hwn, grf_one hwn hnn, fun hi1 hi2 hi3 => hoth iw hi1 hi2 hi3⟩

theorem C9_amended_wrapper_link_witness :
    ((annots stC1 1).native_function = some 0 ∧ (get_real_function stC1 1).2 = some 0) ∧
    ((annots stP 1).native_function = some 0 ∧ (get_real_function stP 1).2 = some 0 ∧
      annots stP 2 = annots [] 2) :=
  ⟨C9_amended_wrapper_link.1 [] 1 0 2 0 stC1 (by decide) (by decide) (by decide) (by decide),
   (C9_amended_wrapper_link.2.2 [] 1 2 0 3 0 stP (by decide) (by decide) (by decide)
      (by decide)).1,
   (C9_amended_wrapper_link.2.2 [] 1 2 0 3 0 stP (by decide) (by decide) (by decide)
      (by decide)).2.1,
   (C9_amended_wrapper_link.2.2 [] 1 2 0 3 0 stP (by decide) (by decide) (by decide)
      (by decide)).2.2 (by decide) (by decide) (by decide)⟩

/-- C2: applying two distinct registered wrappers `w1` then `w2` to a plain
function `f` (all function objects involved pairwise distinct) makes
`get_decorators` return exactly `[w1, w2]` — length two, containing exactly
the two wrappers — on every function of the chain (`f`, the first wrapper
result `fd1` and the second `fd2`); re-applying `w1` on top does not add a
second occurrence. -/
theorem C2_distinct_wrappers_dedup (st : Heap) (f w1 w2 fd1 fd2 fd3 : FnId)
    (hf : annots st f = {})
    (hnd : [f, w1, w2, fd1, fd2, fd3].Nodup) :
    ∃ st1 st2 st3,
      applyDecorator st w1 f fd1 = (st1, some fd1) ∧
      applyDecorator st1 w2 fd1 fd2 = (st2, some fd2) ∧
      (get_decorators st2 f).2 = some [w1, w2] ∧
      (get_decorators st2 fd1).2 = some [w1, w2] ∧
      (get_decorators st2 fd2).2 = some [w1, w2] ∧
      ([w1, w2] : List FnId).length = 2 ∧
      (∀ d, d ∈ ([w1, w2] : List FnId) ↔ (d = w1 ∨ d = w2)) ∧
      applyDecorator st2 w1 fd2 fd3 = (st3, some fd3) ∧
      (get_decorators st3 f).2 = some [w1, w2] := by
  simp [List.nodup_cons] at hnd
  obtain ⟨⟨hfw1, hfw2, hffd1, hffd2, hffd3⟩, ⟨hw12, hw1fd1, hw1fd2, hw1fd3⟩,
    ⟨hw2fd1, hw2fd2, hw2fd3⟩, ⟨hfd12, hfd13⟩, hfd23⟩ := hnd
  have hfn : (annots st f).native_function = none := by rw [hf]
  obtain ⟨st1, he1, hoth1, hnat1, hfd1c, hw1c⟩ :=
    applyDecorator_spec st w1 f fd1 f (chain_done hfn _) (Ne.symm hffd1) (Ne.symm hfw1)
  have h1f : annots st1 f = { ({} : Annots) with decorators := some [w1] } := by
    rw [hnat1, hf]
    simp [appendDedup_nil]
  have h1fn : (annots st1 f).native_function = none := by rw [h1f]
  have h1fd1n : (annots st1 fd1).native_function = some f := by rw [hfd1c]
  have hch2 : chainAux st1 (chainBound st1) fd1 = some f :=
    chain_one h1fd1n h1fn (chainBound_pos h1fd1n)
  obtain ⟨st2, he2, hoth2, hnat2, hfd2c, hw2c⟩ :=
    applyDecorator_spec st1 w2 fd1 fd2 f hch2 (Ne.symm hffd2) (Ne.symm hfw2)
  have h2f : annots st2 f = { ({} : Annots) with decorators := some [w1, w2] } := by
    rw [hnat2, h1f]
    have : appendDedup [w1] w2 = [w1, w2] := by
      rw [appendDedup_of_not_mem]
      · rfl
      · simp [Ne.symm hw12]
    simp [this]
  have h2fn : (annots st2 f).native_function = none := by rw [h2f]
  have h2fd1 : annots st2 fd1 = annots st1 fd1 :=
    hoth2 fd1 hfd12 (Ne.symm hw2fd1) (Ne.symm hffd1)
  have h2fd1n : (annots st2 fd1).native_function = some f := by rw [h2fd1, hfd1c]
  have h2fd2n : (annots st2 fd2).native_function = some f := by rw [hfd2c]
  have h2fds : (annots st2 f).decorators.getD [] = [w1, w2] := by
    rw [h2f]
    rfl
  have hgf2 : (get_decorators st2 f).2 = some [w1, w2] := by
    rw [gd_done h2fn, h2fds]
  have hgfd1 : (get_decorators st2 fd1).2 = some [w1, w2] := by
    rw [gd_one h2fd1n h2fn, h2fds]
  have hgfd2 : (get_decorators st2 fd2).2 = some [w1, w2] := by
    rw [gd_one h2fd2n h2fn, h2fds]
  have hch3 : chainAux st2 (chainBound st2) fd2 = some f :=
    chain_one h2fd2n h2fn (chainBound_pos h2fd2n)
  obtain ⟨st3, he3, hoth3, hnat3, hfd3c, hw3c⟩ :=
    applyDecorator_spec st2 w1 fd2 fd3 f hch3 (Ne.symm hffd3) (Ne.symm hfw1)
  have h3f : annots st3 f = { ({} : Annots) with decorators := some [w1, w2] } := by
    rw [hnat3, h2f]
    have : appendDedup [w1, w2] w1 = [w1, w2] := appendDedup_of_mem (by simp)
    simp [this]
  have h3fn : (annots st3 f).native_function = none := by rw [h3f]
  have hgf3 : (get_decorators st3 f).2 = some [w1, w2] := by
    rw [gd_done h3fn, h3f]
    rfl
  exact ⟨st1, st2, st3, he1, he2, hgf2, hgfd1, hgfd2, rfl,
    fun d => by simp, he3, hgf3⟩

theorem C2_distinct_wrappers_dedup_witness :
    ∃ st1 st2 st3,
      applyDecorator [] 0 5 1 = (st1, some 1) ∧
      applyDecorator st1 2 1 3 = (st2, some 3) ∧
      (get_decorators st2 5).2 = some [0, 2] ∧
      (get_decorators st2 1).2 = some [0, 2] ∧
      (get_decorators st2 3).2 = some [0, 2] ∧
      ([0, 2] : List FnId).length = 2 ∧
      applyDecorator st2 0 3 4 = (st3, some 4) ∧
      (get_decorators st3 5).2 = some [0, 2] := by
  obtain ⟨st1, st2, st3, h1, h2, h3, h4, h5, h6, h7, h8, h9⟩ :=
    C2_distinct_wrappers_dedup [] 5 0 2 1 3 4 rfl (by decide)
  exact ⟨st1, st2, st3, h1, h2, h3, h4, h5, h6, h8, h9⟩

theorem Qpres_get_native (st : Heap) (n : FnId) : Qpres st (get_native_function st n).1 := by
  rw [get_native_function_eq]
  exact Qpres_make_portable st n

theorem Qpres_get_real (st : Heap) (n : FnId) : Qpres st (get_real_function st n).1 :=
  Qpres_get_native st n

theorem Qpres_get_decorators (st : Heap) (n : FnId) : Qpres st (get_decorators st n).1 := by
  rw [get_decorators_eq]
  exact Qpres_make_portable st n

theorem Qpres_is_decorated (st : Heap) (n d : FnId) : Qpres st (is_decorated_with st n d).1 := by
  rw [is_decorated_with_eq]
  exact Qpres_make_portable st n

theorem Qpres_decoratedMethodsAux (d : FnId) :
    ∀ (l : List (String × Member)) (st : Heap), Qpres st (decoratedMethodsAux d st l).1 := by
  intro l
  induction l with
  | nil =>
    intro st
    simpa [decoratedMethodsAux] using Qpres_refl st
  | cons p rest ih =>
    intro st
    obtain ⟨nm, v⟩ := p
    cases v with
    | func n =>
      rcases hgd : get_decorators st n with ⟨st1, dso⟩
      have hq1 : Qpres st st1 := by
        have := Qpres_get_decorators st n
        rwa [hgd] at this
      cases dso with
      | none =>
        simp [decoratedMethodsAux, hgd]
        exact hq1
      | some ds =>
        rcases hrec : decoratedMethodsAux d st1 rest with ⟨st2, out, ok⟩
        have hq2 : Qpres st1 st2 := by
          have := ih st1
          rwa [hrec] at this
        by_cases hd : d ∈ ds <;>
          simp [decoratedMethodsAux, hgd, hrec, hd] <;>
          exact Qpres_trans hq1 hq2
    | staticm n => simpa [decoratedMethodsAux] using ih st
    | classm n => simpa [decoratedMethodsAux] using ih st
    | other => simpa [decoratedMethodsAux] using ih st

theorem Qpres_decorated_methods (st : Heap) (co : ClsOrInst) (d : FnId) :
    Qpres st (decorated_methods st co d).1 := by
  unfold decorated_methods
  rcases h : decoratedMethodsAux d st (resolveClass co).dict with ⟨st1, out, ok⟩
  have hq : Qpres st st1 := by
    have := Qpres_decoratedMethodsAux d (resolveClass co).dict st
    rwa [h] at this
  cases ok <;> simpa [h] using hq

theorem Qpres_scanClassAux (nameOf : FnId → String) (c : PyClass) :
    ∀ (names : List String) (st : Heap) (seen : List String),
      Qpres st (scanClassAux nameOf c st seen names).1 := by
  intro names
  induction names with
  | nil =>
    intro st seen
    simpa [scanClassAux] using Qpres_refl st
  | cons nm rest ih =>
    intro st seen
    rcases hv : lookupS c.dict nm with _ | v
    · simpa [scanClassAux, hv] using ih st seen
    rcases hu : unwrapMember v with _ | fnid
    · simpa [scanClassAux, hv, hu] using ih st seen
    have hq1 : Qpres st (make_portable st fnid) := Qpres_make_portable st fnid
    rcases hgd : get_decorators (make_portable st fnid) fnid with ⟨st2, dso⟩
    have hq2 : Qpres (make_portable st fnid) st2 := by
      have := Qpres_get_decorators (make_portable st fnid) fnid
      rwa [hgd] at this
    have hq12 : Qpres st st2 := Qpres_trans hq1 hq2
    cases dso with
    | none =>
      simp [scanClassAux, hv, hu, hgd]
      exact hq12
    | some ds =>
      by_cases hlen : ds.length > 0
      · rcases hnat : (annots st2 fnid).native_function with _ | natid
        · simp [scanClassAux, hv, hu, hgd, hlen, hnat]
          exact hq12
        · by_cases hseen : nameOf natid ∈ seen
          · have := ih st2 seen
            simp [scanClassAux, hv, hu, hgd, hlen, hnat, hseen]
            exact Qpres_trans hq12 this
          · rcases hrec : scanClassAux nameOf c st2 (seen ++ [nameOf natid]) rest with
              ⟨st3, seen3, out, e⟩
            have hq3 : Qpres st2 st3 := by
              have := ih st2 (seen ++ [nameOf natid])
              rwa [hrec] at this
            simp [scanClassAux, hv, hu, hgd, hlen, hnat, hseen, hrec]
            exact Qpres_trans hq12 hq3
      · have := ih st2 seen
        simp [scanClassAux, hv, hu, hgd, hlen]
        exact Qpres_trans hq12 this

theorem Qpres_scanModuleAux (nameOf : FnId → String) (mod : PyModule) (exM exF : Bool) :
    ∀ (names : List String) (st : Heap) (seen : List String),
      Qpres st (scanModuleAux nameOf mod exM exF st seen names).1 := by
  intro names
  induction names with
  | nil =>
    intro st seen
    simpa [scanModuleAux] using Qpres_refl st
  | cons nm rest ih =>
    intro st seen
    rcases hv : lookupS mod.dict nm with _ | v
    · simpa [scanModuleAux, hv] using ih st seen
    cases v with
    | cls c =>
      cases exM with
      | true => simpa [scanModuleAux, hv] using ih st seen
      | false =>
        rcases hcl : scanClassAux nameOf c st seen (dirClass c) with ⟨st1, seen1, out1, e1⟩
        have hq1 : Qpres st st1 := by
          have := Qpres_scanClassAux nameOf c (dirClass c) st seen
          rwa [hcl] at this
        cases e1 with
        | some e =>
          simp [scanModuleAux, hv, hcl]
          exact hq1
        | none =>
          rcases hrec : scanModuleAux nameOf mod false exF st1 seen1 rest with
            ⟨st2, seen2, out2, e2⟩
          have hq2 : Qpres st1 st2 := by
            have := ih st1 seen1
            rwa [hrec] at this
          simp [scanModuleAux, hv, hcl, hrec]
          exact Qpres_trans hq1 hq2
    | func fnid =>
      cases exF with
      | true => simpa [scanModuleAux, hv, unwrapModVal] using ih st seen
      | false =>
        have hq1 : Qpres st (make_portable st fnid) := Qpres_make_portable st fnid
        rcases hgd : get_decorators (make_portable st fnid) fnid with ⟨st2, dso⟩
        have hq2 : Qpres (make_portable st fnid) st2 := by
          have := Qpres_get_decorators (make_portable st fnid) fnid
          rwa [hgd] at this
        have hq12 : Qpres st st2 := Qpres_trans hq1 hq2
        cases dso with
        | none =>
          simp [scanModuleAux, hv, unwrapModVal, hgd]
          exact hq12
        | some ds =>
          by_cases hlen : ds.length > 0
          · rcases hnat : (annots st2 fnid).native_function with _ | natid
            · simp [scanModuleAux, hv, unwrapModVal, hgd, hlen, hnat]
              exact hq12
            · by_cases hseen : nameOf natid ∈ seen
              · have := ih st2 seen
                simp [scanModuleAux, hv, unwrapModVal, hgd, hlen, hnat, hseen]
                exact Qpres_trans hq12 this
              · rcases hrec : scanModuleAux nameOf mod exM false st2 (seen ++ [nameOf natid]) rest
                  with ⟨st3, seen3, out, e⟩
                have hq3 : Qpres st2 st3 := by
                  have := ih st2 (seen ++ [nameOf natid])
                  rwa [hrec] at this
                simp [scanModuleAux, hv, unwrapModVal, hgd, hlen, hnat, hseen, hrec]
                exact Qpres_trans hq12 hq3
          · have := ih st2 seen
            simp [scanModuleAux, hv, unwrapModVal, hgd, hlen]
            exact Qpres_trans hq12 this
    | staticm fnid =>
      cases exF with
      | true => simpa [scanModuleAux, hv, unwrapModVal] using ih st seen
      | false =>
        have hq1 : Qpres st (make_portable st fnid) := Qpres_make_portable st fnid
        rcases hgd : get_decorators (make_portable st fnid) fnid with ⟨st2, dso⟩
        have hq2 : Qpres (make_portable st fnid) st2 := by
          have := Qpres_get_decorators (make_portable st fnid) fnid
          rwa [hgd] at this
        have hq12 : Qpres st st2 := Qpres_trans hq1 hq2
        cases dso with
        | none =>
          simp [scanModuleAux, hv, unwrapModVal, hgd]
          exact hq12
        | some ds =>
          by_cases hlen : ds.length > 0
          · rcases hnat : (annots st2 fnid).native_function with _ | natid
            · simp [scanModuleAux, hv, unwrapModVal, hgd, hlen, hnat]
              exact hq12
            · by_cases hseen : nameOf natid ∈ seen
              · have := ih st2 seen
                simp [scanModuleAux, hv, unwrapModVal, hgd, hlen, hnat, hseen]
                exact Qpres_trans hq12 this
              · rcases hrec : scanModuleAux nameOf mod exM false st2 (seen ++ [nameOf natid]) rest
                  with ⟨st3, seen3, out, e⟩
                have hq3 : Qpres st2 st3 := by
                  have := ih st2 (seen ++ [nameOf natid])
                  rwa [hrec] at this
                simp [scanModuleAux, hv, unwrapModVal, hgd, hlen, hnat, hseen, hrec]
                exact Qpres_trans hq12 hq3
          · have := ih st2 seen
            simp [scanModuleAux, hv, unwrapModVal, hgd, hlen]
            exact Qpres_trans hq12 this
    | classm fnid =>
      cases exF with
      | true => simpa [scanModuleAux, hv, unwrapModVal] using ih st seen
      | false =>
        have hq1 : Qpres st (make_portable st fnid) := Qpres_make_portable st fnid
        rcases hgd : get_decorators (make_portable st fnid) fnid with ⟨st2, dso⟩
        have hq2 : Qpres (make_portable st fnid) st2 := by
          have := Qpres_get_decorators (make_portable st fnid) fnid
          rwa [hgd] at this
        have hq12 : Qpres st st2 := Qpres_trans hq1 hq2
        cases dso with
        | none =>
          simp [scanModuleAux, hv, unwrapModVal, hgd]
          exact hq12
        | some ds =>
          by_cases hlen : ds.length > 0
          · rcases hnat : (annots st2 fnid).native_function with _ | natid
            · simp [scanModuleAux, hv, unwrapModVal, hgd, hlen, hnat]
              exact hq12
            · by_cases hseen : nameOf natid ∈ seen
              · have := ih st2 seen
                simp [scanModuleAux, hv, unwrapModVal, hgd, hlen, hnat, hseen]
                exact Qpres_trans hq12 this
              · rcases hrec : scanModuleAux nameOf mod exM false st2 (seen ++ [nameOf natid]) rest
                  with ⟨st3, seen3, out, e⟩
                have hq3 : Qpres st2 st3 := by
                  have := ih st2 (seen ++ [nameOf natid])
                  rwa [hrec] at this
                simp [scanModuleAux, hv, unwrapModVal, hgd, hlen, hnat, hseen, hrec]
                exact Qpres_trans hq12 hq3
          · have := ih st2 seen
            simp [scanModuleAux, hv, unwrapModVal, hgd, hlen]
            exact Qpres_trans hq12 this
    | other => simpa [scanModuleAux, hv, unwrapModVal] using ih st seen

theorem Qpres_all_decorated (nameOf : FnId → String) (st : Heap) (mod : PyModule)
    (exM exF : Bool) : Qpres st (all_decorated_module_functions nameOf st mod exM exF).1 := by
  unfold all_decorated_module_functions
  rcases h : scanModuleAux nameOf mod exM exF st [] (dirModule mod) with ⟨st1, seen, out, e⟩
  have hq : Qpres st st1 := by
    have := Qpres_scanModuleAux nameOf mod exM exF (dirModule mod) st []
    rwa [h] at this
  simpa [h] using hq

theorem Qpres_get_decorators_v (st : Heap) (v : Option ModVal) :
    Qpres st (get_decorators_v st v).1 := by
  unfold get_decorators_v
  rcases v with _ | v
  · exact Qpres_refl st
  cases v with
  | func n =>
    rcases hgd : get_decorators st n with ⟨st1, dso⟩
    have hq : Qpres st st1 := by
      have := Qpres_get_decorators st n
      rwa [hgd] at this
    cases dso <;> simpa [hgd] using hq
  | staticm n =>
    rcases hgd : get_decorators st n with ⟨st1, dso⟩
    have hq : Qpres st st1 := by
      have := Qpres_get_decorators st n
      rwa [hgd] at this
    cases dso <;> simpa [hgd] using hq
  | classm n =>
    rcases hgd : get_decorators st n with ⟨st1, dso⟩
    have hq : Qpres st st1 := by
      have := Qpres_get_decorators st n
      rwa [hgd] at this
    cases dso <;> simpa [hgd] using hq
  | cls c => exact Qpres_refl st
  | other => exact Qpres_refl st

theorem Qpres_filterDecorated (d : FnId) :
    ∀ (l : List ScanEntry) (st : Heap), Qpres st (filterDecorated d st l).1 := by
  intro l
  induction l with
  | nil =>
    intro st
    simpa [filterDecorated] using Qpres_refl st
  | cons p rest ih =>
    intro st
    obtain ⟨fname, v⟩ := p
    rcases hgv : get_decorators_v st v with ⟨st1, r⟩
    have hq1 : Qpres st st1 := by
      have := Qpres_get_decorators_v st v
      rwa [hgv] at this
    cases r with
    | error e =>
      simp [filterDecorated, hgv]
      exact hq1
    | ok ds =>
      rcases hrec : filterDecorated d st1 rest with ⟨st2, out, e⟩
      have hq2 : Qpres st1 st2 := by
        have := ih st1
        rwa [hrec] at this
      by_cases hd : d ∈ ds <;>
        simp [filterDecorated, hgv, hrec, hd] <;>
        exact Qpres_trans hq1 hq2

theorem Qpres_module_functions (nameOf : FnId → String) (st : Heap) (mod : PyModule)
    (d : FnId) (exM exF : Bool) :
    Qpres st (module_functions_decorated_with nameOf st mod d exM exF).1 := by
  unfold module_functions_decorated_with
  rcases h : all_decorated_module_functions nameOf st mod exM exF with ⟨st1, out, e⟩
  have hq1 : Qpres st st1 := by
    have := Qpres_all_decorated nameOf st mod exM exF
    rwa [h] at this
  cases e with
  | some err => simpa using hq1
  | none =>
    rcases hf : filterDecorated d st1 out with ⟨st2, out2, e2⟩
    have hq2 : Qpres st1 st2 := by
      have := Qpres_filterDecorated d out st1
      rwa [hf] at this
    simpa [hf] using Qpres_trans hq1 hq2

/-- C10: the six query operations never add, remove or change any of the three
tracking keys on any function: the metadata read by later queries is unchanged
by querying, and the underlying heap changes at most by attaching an empty
metadata map to a function that carried none. -/
theorem C10_queries_preserve_tracking (st : Heap) :
    (∀ n, Preserves st (get_real_function st n).1) ∧
    (∀ n, Preserves st (get_decorators st n).1) ∧
    (∀ n d, Preserves st (is_decorated_with st n d).1) ∧
    (∀ co d, Preserves st (decorated_methods st co d).1) ∧
    (∀ nameOf mod exM exF, Preserves st (all_decorated_module_functions nameOf st mod exM exF).1) ∧
    (∀ nameOf mod d exM exF,
      Preserves st (module_functions_decorated_with nameOf st mod d exM exF).1) :=
  ⟨fun n => (Qpres_get_real st n).1,
   fun n => (Qpres_get_decorators st n).1,
   fun n d => (Qpres_is_decorated st n d).1,
   fun co d => (Qpres_decorated_methods st co d).1,
   fun nameOf mod exM exF => (Qpres_all_decorated nameOf st mod exM exF).1,
   fun nameOf mod d exM exF => (Qpres_module_functions nameOf st mod d exM exF).1⟩

theorem no_self_loop_reaches {st : Heap} {n : FnId}
    (h : (annots st n).native_function = some n) {x r : FnId} (hr : Reaches st x r) :
    x ≠ n := by
  induction hr with
  | @done y hy =>
    rintro rfl
    rw [h] at hy
    cases hy
  | @step y m r hy _ ih =>
    rintro rfl
    rw [h] at hy
    cases hy
    exact ih rfl

/-- C5 counterexample: a registered wrapper whose native decorator returns its
argument unchanged (a legal decorator, function to function) applied to the
plain function `0` makes the application itself diverge, and leaves a heap in
which the chain walk from `0` never terminates — the acyclicity and
termination invariant the claim asserts is not preserved by the operation. -/
theorem C5_counterexample :
    (applyDecorator [] 1 0 0).2 = none ∧ ¬ Terminates stLoop 0 := by
  refine ⟨by decide, ?_⟩
  rintro ⟨r, hr⟩
  exact no_self_loop_reaches (by decide : (annots stLoop 0).native_function = some 0) hr rfl

theorem chainsTerminate_update (st st' : Heap) (a b nat : FnId)
    (hnat : (annots st nat).native_function = none) (ha : nat ≠ a) (hb : nat ≠ b)
    (hmap : ∀ n, (annots st' n).native_function =
      if n = a ∨ n = b then some nat else (annots st n).native_function)
    (hst : ChainsTerminate st) : ChainsTerminate st' := by
  have hnat' : (annots st' nat).native_function = none := by
    rw [hmap nat, if_neg (by simp [ha, hb])]
    exact hnat
  have hab : ∀ n, (n = a ∨ n = b) → Reaches st' n nat := fun n hn =>
    Reaches.step (by rw [hmap n, if_pos hn]) (Reaches.done hnat')
  intro n
  obtain ⟨r, hr⟩ := hst n
  clear hst
  induction hr with
  | @done x hx =>
    by_cases hxab : x = a ∨ x = b
    · exact ⟨nat, hab x hxab⟩
    · exact ⟨x, Reaches.done (by rw [hmap x, if_neg hxab]; exact hx)⟩
  | @step x m r hx _ ih =>
    by_cases hxab : x = a ∨ x = b
    · exact ⟨nat, hab x hxab⟩
    · obtain ⟨r', hr'⟩ := ih
      exact ⟨r', Reaches.step (by rw [hmap x, if_neg hxab]; exact hx) hr'⟩

/-- C5 amended: the query operations preserve termination of every chain walk
unconditionally, and an application of a registered wrapper (plain or
parametrized) preserves it provided the object returned by the native
decorator and the wrapper itself both differ from the resolved true original
of the target — the proviso the counterexample forces; when it holds the
application itself terminates as well.  Hence the chain-following resolution
of `get_real_function` and `get_decorators` keeps terminating on every
function. -/
theorem C5_amended_chain_termination :
    (∀ st n, ChainsTerminate st → ChainsTerminate (get_real_function st n).1) ∧
    (∀ st n, ChainsTerminate st → ChainsTerminate (get_decorators st n).1) ∧
    (∀ st n d, ChainsTerminate st → ChainsTerminate (is_decorated_with st n d).1) ∧
    (∀ st w fn fd nat st' r, ChainsTerminate st →
      chainAux st (chainBound st) fn = some nat → fd ≠ nat → w ≠ nat →
      applyDecorator st w fn fd = (st', r) →
      r = some fd ∧ ChainsTerminate st') ∧
    (∀ st pw iw fn fd nat st' r, ChainsTerminate st →
      chainAux st (chainBound st) fn = some nat → fd ≠ nat → pw ≠ nat →
      applyParametrizedDecorator st pw iw fn fd = (st', r) →
      r = some fd ∧ ChainsTerminate st') := by
  have hq : ∀ st st', Qpres st st' → ChainsTerminate st → ChainsTerminate st' := by
    intro st st' hpres hst n
    obtain ⟨r, hr⟩ := hst n
    exact ⟨r, Reaches_congr hpres.1.1 hr⟩
  refine ⟨fun st n h => hq st _ (Qpres_get_real st n) h,
    fun st n h => hq st _ (Qpres_get_decorators st n) h,
    fun st n d h => hq st _ (Qpres_is_decorated st n d) h, ?_, ?_⟩
  · intro st w fn fd nat st' r hst hch hfd hw happ
    obtain ⟨st2, he, hoth, hnatc, hfdc, hwc⟩ := applyDecorator_spec st w fn fd nat hch hfd hw
    rw [happ] at he
    obtain ⟨rfl, hr⟩ := Prod.mk.injEq .. ▸ he
    refine ⟨hr, ?_⟩
    refine chainsTerminate_update st st' fd w nat (chainAux_last hch) (Ne.symm hfd)
      (Ne.symm hw) ?_ hst
    intro n
    by_cases h1 : n = fd
    · subst h1
      rw [if_pos (Or.inl rfl), hfdc]
    · by_cases h2 : n = w
      · subst h2
        rw [if_pos (Or.inr rfl), hwc h1]
      · rw [if_neg (by simp [h1, h2])]
        by_cases h3 : n = nat
        · subst h3
          rw [hnatc]
        · rw [hoth n h1 h2 h3]
  · intro st pw iw fn fd nat st' r hst hch hfd hpw happ
    obtain ⟨st2, he, hoth, hnatc, hfdc, hwc⟩ :=
      applyParametrizedDecorator_spec st pw iw fn fd nat hch hfd hpw
    rw [happ] at he
    obtain ⟨rfl, hr⟩ := Prod.mk.injEq .. ▸ he
    refine ⟨hr, ?_⟩
    refine chainsTerminate_update st st' fd pw nat (chainAux_last hch) (Ne.symm hfd)
      (Ne.symm hpw) ?_ hst
    intro n
    by_cases h1 : n = fd
    · subst h1
      rw [if_pos (Or.inl rfl), hfdc]
    · by_cases h2 : n = pw
      · subst h2
        rw [if_pos (Or.inr rfl), hwc h1]
      · rw [if_neg (by simp [h1, h2])]
        by_cases h3 : n = nat
        · subst h3
          rw [hnatc]
        · rw [hoth n h1 h2 h3]

theorem C5_amended_chain_termination_witness :
    (applyDecorator [] 1 0 2).2 = some 2 ∧ ChainsTerminate stC1 := by
  have hct : ChainsTerminate ([] : Heap) := fun n => ⟨n, Reaches.done rfl⟩
  have h := C5_amended_chain_termination.2.2.2.1 [] 1 0 2 0 stC1
    ((applyDecorator [] 1 0 2).2) hct (by decide) (by decide) (by decide) (by decide)
  exact ⟨h.1, h.2⟩

theorem decoratedMethodsAux_out (d : FnId) :
    ∀ (l : List (String × Member)) (st st0 : Heap), Qpres st0 st →
      ∀ st' out, decoratedMethodsAux d st l = (st', out, true) →
        out = l.filter (methodHit st0 d) := by
  intro l
  induction l with
  | nil =>
    intro st st0 hq st' out h
    simp [decoratedMethodsAux] at h
    simp [h.2]
  | cons p rest ih =>
    intro st st0 hq st' out h
    obtain ⟨nm, v⟩ := p
    cases v with
    | func n =>
      rcases hgd : get_decorators st n with ⟨st1, dso⟩
      have hq1 : Qpres st0 st1 := by
        refine Qpres_trans hq ?_
        have := Qpres_get_decorators st n
        rwa [hgd] at this
      cases dso with
      | none =>
        simp [decoratedMethodsAux, hgd] at h
      | some ds =>
        rcases hrec : decoratedMethodsAux d st1 rest with ⟨st2, out2, ok⟩
        have hds : (get_decorators st0 n).2 = some ds := by
          rw [← gd_congr hq n, hgd]
        have hhit : methodHit st0 d (nm, Member.func n) = decide (d ∈ ds) := by
          simp [methodHit, hds]
        by_cases hd : d ∈ ds
        · simp [decoratedMethodsAux, hgd, hrec, hd] at h
          obtain ⟨-, hout, hok⟩ := h
          have := ih st1 st0 hq1 st2 out2 (by rw [hrec, hok])
          rw [← hout, this]
          simp [List.filter_cons, hhit, hd]
        · simp [decoratedMethodsAux, hgd, hrec, hd] at h
          obtain ⟨-, hout, hok⟩ := h
          have := ih st1 st0 hq1 st2 out2 (by rw [hrec, hok])
          rw [← hout, this]
          simp [List.filter_cons, hhit, hd]
    | staticm n =>
      have := ih st st0 hq st' out (by simpa [decoratedMethodsAux] using h)
      rw [this]
      simp [List.filter_cons, methodHit]
    | classm n =>
      have := ih st st0 hq st' out (by simpa [decoratedMethodsAux] using h)
      rw [this]
      simp [List.filter_cons, methodHit]
    | other =>
      have := ih st st0 hq st' out (by simpa [decoratedMethodsAux] using h)
      rw [this]
      simp [List.filter_cons, methodHit]

/-- C3 counterexample: in `stC1` the wrapper result `2` has true original `0`
marked with the registered wrapper `1`.  A class declaring `2` through the
staticmethod binding form is scanned by `decorated_methods` without yielding
anything, although the member's underlying function is decorated with `1`
(as the unwrapping read shows): `decorated_methods` examines only
plain-function members and does not unwrap the method-binding forms. -/
theorem C3_counterexample :
    (decorated_methods stC1 (ClsOrInst.cls clsStatic) 1).2 = some [] ∧
    unwrapMember (Member.staticm 2) = some 2 ∧
    (is_decorated_with stC1 2 1).2 = some true ∧
    (get_real_function stC1 2).2 = some 0 := by
  decide

/-- C3 amended: `decorated_methods` yields exactly the members of the class's
own dictionary that are bound as plain functions and whose `get_decorators`
contains the decorator — members bound through staticmethod or classmethod are
skipped, methods decorated only with an unregistered decorator carry no
metadata and are excluded, and the result is independent of the inherited
members. -/
theorem C3_amended_plain_function_members (st : Heap) (co : ClsOrInst) (d : FnId)
    (out : List (String × Member))
    (h : (decorated_methods st co d).2 = some out) :
    out = (resolveClass co).dict.filter (methodHit st d) ∧
    (∀ bd, decorated_methods st
        (ClsOrInst.cls { resolveClass co with inheritedDict := bd }) d =
      decorated_methods st (ClsOrInst.cls (resolveClass co)) d) := by
  refine ⟨?_, fun bd => rfl⟩
  unfold decorated_methods at h
  rcases haux : decoratedMethodsAux d st (resolveClass co).dict with ⟨st1, out1, ok⟩
  cases ok with
  | false => simp [haux] at h
  | true =>
    simp [haux] at h
    rw [← h]
    exact decoratedMethodsAux_out d _ st st (Qpres_refl st) st1 out1 haux

theorem C3_amended_plain_function_members_witness :
    ([("m", Member.func 2)] : List (String × Member)) =
      clsPlain.dict.filter (methodHit stC1 1) ∧
    decorated_methods stC1
        (ClsOrInst.cls { resolveClass (ClsOrInst.cls clsPlain) with
          inheritedDict := [("x", Member.func 9)] }) 1 =
      decorated_methods stC1 (ClsOrInst.cls (resolveClass (ClsOrInst.cls clsPlain))) 1 :=
  ⟨(C3_amended_plain_function_members stC1 (ClsOrInst.cls clsPlain) 1
      [("m", Member.func 2)] (by decide)).1,
   (C3_amended_plain_function_members stC1 (ClsOrInst.cls clsPlain) 1
      [("m", Member.func 2)] (by decide)).2 [("x", Member.func 9)]⟩

/-- C6 counterexample: `stC1` is reached by ordinary registry usage (wrapper
`1` applied to the plain function `0`, result `2`), and `modOrig` binds the
true original `0` at top level — as `g = w(f)` does in the host language for
the untouched `f`.  Scanning this module raises `KeyError`: the original has a
non-empty `decorators` list but no `native_function` key, and the scan reads
that key unguarded.  The error propagates to
`module_functions_decorated_with`. -/
theorem C6_counterexample :
    (all_decorated_module_functions nmF stC1 modOrig false false).2.2 = some PyErr.keyErr ∧
    (module_functions_decorated_with nmF stC1 modOrig 1 false false).2.2 =
      some PyErr.keyErr := by
  decide

theorem scanOKb_congr {st0 st : Heap} (hq : Qpres st0 st) (n : FnId) :
    scanOKb st n = scanOKb st0 n := by
  unfold scanOKb
  rw [gd_congr hq n, hq.1.1 n]

theorem valOKb_congr {st0 st : Heap} (hq : Qpres st0 st) (v : Option ModVal) :
    valOKb st v = valOKb st0 v := by
  unfold valOKb
  rcases v with _ | v
  · rfl
  cases v <;> simp [gd_congr hq]

theorem lookupS_mem {α : Type} {l : List (String × α)} {nm : String} {v : α}
    (h : lookupS l nm = some v) : (nm, v) ∈ l := by
  induction l with
  | nil => cases h
  | cons p l ih =>
    obtain ⟨k, b⟩ := p
    by_cases hk : k = nm
    · subst hk
      simp [lookupS] at h
      simp [h]
    · simp only [lookupS, hk, if_false] at h
      exact List.mem_cons_of_mem _ (ih h)

theorem mem_scanIds_of_fn {mod : PyModule} {nm : String} {v : ModVal} {n : FnId}
    (h : (nm, v) ∈ mod.dict) (hu : unwrapModVal v = some n) : n ∈ scanIds mod := by
  unfold scanIds
  rw [List.mem_flatten]
  refine ⟨modValIds v, List.mem_map.mpr ⟨(nm, v), h, rfl⟩, ?_⟩
  cases v with
  | func m => cases hu; simp [modValIds]
  | staticm m => cases hu; simp [modValIds]
  | classm m => cases hu; simp [modValIds]
  | cls c => cases hu
  | other => cases hu

theorem mem_scanIds_of_method {mod : PyModule} {cn mn : String} {c : PyClass} {m : Member}
    {n : FnId} (h : (cn, ModVal.cls c) ∈ mod.dict) (hm : (mn, m) ∈ c.dict)
    (hu : unwrapMember m = some n) : n ∈ scanIds mod := by
  unfold scanIds
  rw [List.mem_flatten]
  refine ⟨modValIds (ModVal.cls c), List.mem_map.mpr ⟨(cn, ModVal.cls c), h, rfl⟩, ?_⟩
  simp only [modValIds]
  exact List.mem_filterMap.mpr ⟨(mn, m), hm, hu⟩

theorem scanClassAux_ok (nameOf : FnId → String) (c : PyClass) (st0 : Heap)
    (H : ∀ p ∈ c.dict, ∀ n, unwrapMember (Prod.snd p) = some n → scanOKb st0 n = true) :
    ∀ (names : List String) (st : Heap) (seen : List String), Qpres st0 st →
      (scanClassAux nameOf c st seen names).2.2.2 = none := by
  intro names
  induction names with
  | nil =>
    intro st seen hq
    simp [scanClassAux]
  | cons nm rest ih =>
    intro st seen hq
    rcases hv : lookupS c.dict nm with _ | v
    · simpa [scanClassAux, hv] using ih st seen hq
    rcases hu : unwrapMember v with _ | fnid
    · simpa [scanClassAux, hv, hu] using ih st seen hq
    have hok0 : scanOKb st0 fnid = true := H (nm, v) (lookupS_mem hv) fnid hu
    have hq1 : Qpres st0 (make_portable st fnid) :=
      Qpres_trans hq (Qpres_make_portable st fnid)
    rcases hgd : get_decorators (make_portable st fnid) fnid with ⟨st2, dso⟩
    have hq2 : Qpres st0 st2 := by
      refine Qpres_trans hq1 ?_
      have := Qpres_get_decorators (make_portable st fnid) fnid
      rwa [hgd] at this
    have hgd0 : (get_decorators st0 fnid).2 = dso := by
      rw [← gd_congr hq1 fnid, hgd]
    cases dso with
    | none =>
      unfold scanOKb at hok0
      rw [hgd0] at hok0
      cases hok0
    | some ds =>
      by_cases hlen : ds.length > 0
      · have hne : ds.isEmpty = false := by
          cases ds
          · simp at hlen
          · rfl
        have hnat0 : (annots st0 fnid).native_function.isSome = true := by
          unfold scanOKb at hok0
          rw [hgd0] at hok0
          simpa [hne] using hok0
        have hnat2 : (annots st2 fnid).native_function =
            (annots st0 fnid).native_function := by
          rw [hq2.1.1 fnid]
        rcases hnatv : (annots st2 fnid).native_function with _ | natid
        · rw [hnatv] at hnat2
          rw [← hnat2] at hnat0
          cases hnat0
        · by_cases hseen : nameOf natid ∈ seen
          · simpa [scanClassAux, hv, hu, hgd, hlen, hnatv, hseen] using ih st2 seen hq2
          · rcases hrec : scanClassAux nameOf c st2 (seen ++ [nameOf natid]) rest with
              ⟨st3, seen3, out, e⟩
            have := ih st2 (seen ++ [nameOf natid]) hq2
            rw [hrec] at this
            simpa [scanClassAux, hv, hu, hgd, hlen, hnatv, hseen, hrec] using this
      · simpa [scanClassAux, hv, hu, hgd, hlen] using ih st2 seen hq2

theorem scanModuleAux_ok (nameOf : FnId → String) (mod : PyModule) (exM exF : Bool)
    (st0 : Heap) (H : ∀ n ∈ scanIds mod, scanOKb st0 n = true) :
    ∀ (names : List String) (st : Heap) (seen : List String), Qpres st0 st →
      (scanModuleAux nameOf mod exM exF st seen names).2.2.2 = none := by
  have fnStep : ∀ (v : ModVal) (fnid : FnId), unwrapModVal v = some fnid →
      ∀ nm, lookupS mod.dict nm = some v →
      ∀ (rest : List String) (st : Heap) (seen : List String), Qpres st0 st →
      (∀ (st' : Heap) (seen' : List String), Qpres st0 st' →
        (scanModuleAux nameOf mod exM exF st' seen' rest).2.2.2 = none) →
      exF = false →
      (scanModuleAux nameOf mod exM exF st seen (nm :: rest)).2.2.2 = none := by
    intro v fnid hu nm hv rest st seen hq ih hexF
    subst hexF
    have hok0 : scanOKb st0 fnid = true :=
      H fnid (mem_scanIds_of_fn (lookupS_mem hv) hu)
    have hq1 : Qpres st0 (make_portable st fnid) :=
      Qpres_trans hq (Qpres_make_portable st fnid)
    rcases hgd : get_decorators (make_portable st fnid) fnid with ⟨st2, dso⟩
    have hq2 : Qpres st0 st2 := by
      refine Qpres_trans hq1 ?_
      have := Qpres_get_decorators (make_portable st fnid) fnid
      rwa [hgd] at this
    have hgd0 : (get_decorators st0 fnid).2 = dso := by
      rw [← gd_congr hq1 fnid, hgd]
    cases dso with
    | none =>
      unfold scanOKb at hok0
      rw [hgd0] at hok0
      cases hok0
    | some ds =>
      by_cases hlen : ds.length > 0
      · have hne : ds.isEmpty = false := by
          cases ds
          · simp at hlen
          · rfl
        have hnat0 : (annots st0 fnid).native_function.isSome = true := by
          unfold scanOKb at hok0
          rw [hgd0] at hok0
          simpa [hne] using hok0
        have hnat2 : (annots st2 fnid).native_function =
            (annots st0 fnid).native_function := by
          rw [hq2.1.1 fnid]
        rcases hnatv : (annots st2 fnid).native_function with _ | natid
        · rw [hnatv] at hnat2
          rw [← hnat2] at hnat0
          cases hnat0
        · by_cases hseen : nameOf natid ∈ seen
          · cases v with
            | func m =>
              cases hu
              simpa [scanModuleAux, hv, unwrapModVal, hgd, hlen, hnatv, hseen] using
                ih st2 seen hq2
            | staticm m =>
              cases hu
              simpa [scanModuleAux, hv, unwrapModVal, hgd, hlen, hnatv, hseen] using
                ih st2 seen hq2
            | classm m =>
              cases hu
              simpa [scanModuleAux, hv, unwrapModVal, hgd, hlen, hnatv, hseen] using
                ih st2 seen hq2
            | cls c => cases hu
            | other => cases hu
          · rcases hrec : scanModuleAux nameOf mod exM false st2 (seen ++ [nameOf natid]) rest
              with ⟨st3, seen3, out, e⟩
            have hih := ih st2 (seen ++ [nameOf natid]) hq2
            rw [hrec] at hih
            cases v with
            | func m =>
              cases hu
              simpa [scanModuleAux, hv, unwrapModVal, hgd, hlen, hnatv, hseen, hrec] using hih
            | staticm m =>
              cases hu
              simpa [scanModuleAux, hv, unwrapModVal, hgd, hlen, hnatv, hseen, hrec] using hih
            | classm m =>
              cases hu
              simpa [scanModuleAux, hv, unwrapModVal, hgd, hlen, hnatv, hseen, hrec] using hih
            | cls c => cases hu
            | other => cases hu
      · cases v with
        | func m =>
          cases hu
          simpa [scanModuleAux, hv, unwrapModVal, hgd, hlen] using ih st2 seen hq2
        | staticm m =>
          cases hu
          simpa [scanModuleAux, hv, unwrapModVal, hgd, hlen] using ih st2 seen hq2
        | classm m =>
          cases hu
          simpa [scanModuleAux, hv, unwrapModVal, hgd, hlen] using ih st2 seen hq2
        | cls c => cases hu
        | other => cases hu
  intro names
  induction names with
  | nil =>
    intro st seen hq
    simp [scanModuleAux]
  | cons nm rest ih =>
    intro st seen hq
    rcases hv : lookupS mod.dict nm with _ | v
    · simpa [scanModuleAux, hv] using ih st seen hq
    cases v with
    | cls c =>
      cases exM with
      | true => simpa [scanModuleAux, hv] using ih st seen hq
      | false =>
        have Hc : ∀ p ∈ c.dict, ∀ n, unwrapMember (Prod.snd p) = some n →
            scanOKb st0 n = true := by
          rintro ⟨mn, m⟩ hp n hup
          exact H n (mem_scanIds_of_method (lookupS_mem hv) hp hup)
        rcases hcl : scanClassAux nameOf c st seen (dirClass c) with ⟨st1, seen1, out1, e1⟩
        have he1 : e1 = none := by
          have := scanClassAux_ok nameOf c st0 Hc (dirClass c) st seen hq
          rwa [hcl] at this
        subst he1
        have hq1 : Qpres st0 st1 := by
          refine Qpres_trans hq ?_
          have := Qpres_scanClassAux nameOf c (dirClass c) st seen
          rwa [hcl] at this
        rcases hrec : scanModuleAux nameOf mod false exF st1 seen1 rest with
          ⟨st2, seen2, out2, e2⟩
        have hih := ih st1 seen1 hq1
        rw [hrec] at hih
        simpa [scanModuleAux, hv, hcl, hrec] using hih
    | func fnid =>
      cases exF with
      | true => simpa [scanModuleAux, hv, unwrapModVal] using ih st seen hq
      | false =>
        exact fnStep (ModVal.func fnid) fnid rfl nm hv rest st seen hq
          (fun st' seen' hq' => ih st' seen' hq') rfl
    | staticm fnid =>
      cases exF with
      | true => simpa [scanModuleAux, hv, unwrapModVal] using ih st seen hq
      | false =>
        exact fnStep (ModVal.staticm fnid) fnid rfl nm hv rest st seen hq
          (fun st' seen' hq' => ih st' seen' hq') rfl
    | classm fnid =>
      cases exF with
      | true => simpa [scanModuleAux, hv, unwrapModVal] using ih st seen hq
      | false =>
        exact fnStep (ModVal.classm fnid) fnid rfl nm hv rest st seen hq
          (fun st' seen' hq' => ih st' seen' hq') rfl
    | other => simpa [scanModuleAux, hv, unwrapModVal] using ih st seen hq

theorem filterDecorated_ok (d : FnId) (st0 : Heap) :
    ∀ (l : List ScanEntry), (∀ e ∈ l, valOKb st0 e.2 = true) →
      ∀ st, Qpres st0 st → (filterDecorated d st l).2.2 = none := by
  intro l
  induction l with
  | nil =>
    intro _ st _
    simp [filterDecorated]
  | cons p rest ih =>
    intro H st hq
    obtain ⟨fname, v⟩ := p
    have hok0 : valOKb st0 v = true := H (fname, v) (List.mem_cons_self _ _)
    have hok : valOKb st v = true := (valOKb_congr hq v).trans hok0
    have Hrest : ∀ e ∈ rest, valOKb st0 e.2 = true := fun e he =>
      H e (List.mem_cons_of_mem _ he)
    rcases hgv : get_decorators_v st v with ⟨st1, r⟩
    have hq1 : Qpres st0 st1 := by
      refine Qpres_trans hq ?_
      have := Qpres_get_decorators_v st v
      rwa [hgv] at this
    cases r with
    | error e =>
      exfalso
      rcases v with _ | v
      · simp [valOKb] at hok
      cases v with
      | func n =>
        rcases hgd : get_decorators st n with ⟨stx, dso⟩
        cases dso with
        | none =>
          simp [valOKb, hgd] at hok
        | some ds =>
          simp [get_decorators_v, hgd] at hgv
      | staticm n =>
        rcases hgd : get_decorators st n with ⟨stx, dso⟩
        cases dso with
        | none =>
          simp [valOKb, hgd] at hok
        | some ds =>
          simp [get_decorators_v, hgd] at hgv
      | classm n =>
        rcases hgd : get_decorators st n with ⟨stx, dso⟩
        cases dso with
        | none =>
          simp [valOKb, hgd] at hok
        | some ds =>
          simp [get_decorators_v, hgd] at hgv
      | cls c => simp [get_decorators_v] at hgv
      | other => simp [get_decorators_v] at hgv
    | ok ds =>
      rcases hrec : filterDecorated d st1 rest with ⟨st2, out, e⟩
      have hih := ih Hrest st1 hq1
      rw [hrec] at hih
      by_cases hd : d ∈ ds <;> simpa [filterDecorated, hgv, hrec, hd] using hih

/-- C6 amended: the module scans complete without a fault provided every
function the scan examines has a terminating chain walk and, when its
`get_decorators` is non-empty, carries a `native_function` key of its own
(true of every wrapper result, but not of a true original bound directly, as
the counterexample shows), and — for the filtering scan — every yielded entry
value is a bound function-like object.  Under these provisos absence of
metadata is reported only through empty results. -/
theorem C6_amended_scans_no_fault (nameOf : FnId → String) (st : Heap) (mod : PyModule)
    (d : FnId) (exM exF : Bool)
    (H1 : ∀ n ∈ scanIds mod, scanOKb st n = true)
    (H2 : ∀ e ∈ (all_decorated_module_functions nameOf st mod exM exF).2.1,
      valOKb st e.2 = true) :
    (all_decorated_module_functions nameOf st mod exM exF).2.2 = none ∧
    (module_functions_decorated_with nameOf st mod d exM exF).2.2 = none := by
  have h1 : (all_decorated_module_functions nameOf st mod exM exF).2.2 = none := by
    unfold all_decorated_module_functions
    rcases h : scanModuleAux nameOf mod exM exF st [] (dirModule mod) with ⟨st1, seen, out, e⟩
    have := scanModuleAux_ok nameOf mod exM exF st H1 (dirModule mod) st [] (Qpres_refl st)
    rw [h] at this
    simpa [h] using this
  refine ⟨h1, ?_⟩
  unfold module_functions_decorated_with
  rcases h : all_decorated_module_functions nameOf st mod exM exF with ⟨st1, out, e⟩
  have he : e = none := by
    have := h1
    rw [h] at this
    exact this
  subst he
  have hq1 : Qpres st st1 := by
    have := Qpres_all_decorated nameOf st mod exM exF
    rwa [h] at this
  have H2' : ∀ ev ∈ out, valOKb st ev.2 = true := by
    intro ev hev
    apply H2
    rw [h]
    exact hev
  rcases hf : filterDecorated d st1 out with ⟨st2, out2, e2⟩
  have := filterDecorated_ok d st out H2' st1 hq1
  rw [hf] at this
  simpa [hf] using this

theorem C6_amended_scans_no_fault_witness :
    (all_decorated_module_functions nmF stC1 modWrap false false).2.2 = none ∧
    (module_functions_decorated_with nmF stC1 modWrap 1 false false).2.2 = none :=
  C6_amended_scans_no_fault nmF stC1 modWrap 1 false false (by decide) (by decide)

theorem nodup_append_singleton {seen : List String} {x : String}
    (hs : seen.Nodup) (hx : x ∉ seen) : (seen ++ [x]).Nodup := by
  rw [List.nodup_append]
  exact ⟨hs, List.nodup_singleton x, by simpa [List.disjoint_singleton] using hx⟩

theorem scanClassAux_inv (nameOf : FnId → String) (c : PyClass) :
    ∀ (names : List String) (st : Heap) (seen : List String) (st' : Heap)
      (seen' out e2), seen.Nodup →
      scanClassAux nameOf c st seen names = (st', seen', out, e2) →
      ∃ new, seen' = seen ++ new ∧ (seen ++ new).Nodup ∧
        List.Forall₂ (fun (ent : ScanEntry) fname => ent.1 = c.name ++ "." ++ fname ∧
          ent.2 = (lookupS c.dict fname).map memberToModVal) out new := by
  intro names
  induction names with
  | nil =>
    intro st seen st' seen' out e2 hs h
    simp [scanClassAux] at h
    exact ⟨[], by simp [h.2.1.symm], by simpa using hs, by simp [h.2.2.1.symm]⟩
  | cons nm rest ih =>
    intro st seen st' seen' out e2 hs h
    rcases hv : lookupS c.dict nm with _ | v
    · exact ih st seen st' seen' out e2 hs (by simpa [scanClassAux, hv] using h)
    rcases hu : unwrapMember v with _ | fnid
    · exact ih st seen st' seen' out e2 hs (by simpa [scanClassAux, hv, hu] using h)
    rcases hgd : get_decorators (make_portable st fnid) fnid with ⟨st2, dso⟩
    cases dso with
    | none =>
      simp [scanClassAux, hv, hu, hgd] at h
      exact ⟨[], by simp [h.2.1.symm], by simpa using hs, by simp [h.2.2.1.symm]⟩
    | some ds =>
      by_cases hlen : ds.length > 0
      · rcases hnatv : (annots st2 fnid).native_function with _ | natid
        · simp [scanClassAux, hv, hu, hgd, hlen, hnatv] at h
          exact ⟨[], by simp [h.2.1.symm], by simpa using hs, by simp [h.2.2.1.symm]⟩
        · by_cases hseen : nameOf natid ∈ seen
          · exact ih st2 seen st' seen' out e2 hs
              (by simpa [scanClassAux, hv, hu, hgd, hlen, hnatv, hseen] using h)
          · rcases hrec : scanClassAux nameOf c st2 (seen ++ [nameOf natid]) rest with
              ⟨st3, seen3, out3, e3⟩
            simp [scanClassAux, hv, hu, hgd, hlen, hnatv, hseen, hrec] at h
            obtain ⟨hst, hseen3, hout, he⟩ := h
            obtain ⟨new', heq', hnd', hfa'⟩ :=
              ih st2 (seen ++ [nameOf natid]) st3 seen3 out3 e3
                (nodup_append_singleton hs hseen) hrec
            refine ⟨nameOf natid :: new', ?_, ?_, ?_⟩
            · rw [← hseen3, heq', List.append_assoc]
              rfl
            · rw [show seen ++ nameOf natid :: new' = (seen ++ [nameOf natid]) ++ new' by
                rw [List.append_assoc]; rfl]
              exact hnd'
            · rw [← hout]
              exact List.Forall₂.cons ⟨rfl, rfl⟩ hfa'
      · exact ih st2 seen st' seen' out e2 hs
          (by simpa [scanClassAux, hv, hu, hgd, hlen] using h)

theorem scanModuleAux_inv (nameOf : FnId → String) (mod : PyModule) (exM exF : Bool) :
    ∀ (names : List String) (st : Heap) (seen : List String) (st' : Heap)
      (seen' out e2), seen.Nodup →
      scanModuleAux nameOf mod exM exF st seen names = (st', seen', out, e2) →
      ∃ new, seen' = seen ++ new ∧ (seen ++ new).Nodup ∧
        List.Forall₂ (EntryForm mod exM exF) out new := by
  intro names
  induction names with
  | nil =>
    intro st seen st' seen' out e2 hs h
    simp [scanModuleAux] at h
    exact ⟨[], by simp [h.2.1.symm], by simpa using hs, by simp [h.2.2.1.symm]⟩
  | cons nm rest ih =>
    intro st seen st' seen' out e2 hs h
    rcases hv : lookupS mod.dict nm with _ | v
    · exact ih st seen st' seen' out e2 hs (by simpa [scanModuleAux, hv] using h)
    cases v with
    | cls c =>
      cases exM with
      | true => exact ih st seen st' seen' out e2 hs (by simpa [scanModuleAux, hv] using h)
      | false =>
        rcases hcl : scanClassAux nameOf c st seen (dirClass c) with ⟨st1, seen1, out1, e1⟩
        obtain ⟨new1, heq1, hnd1, hfa1⟩ :=
          scanClassAux_inv nameOf c (dirClass c) st seen st1 seen1 out1 e1 hs hcl
        have hfa1' : List.Forall₂ (EntryForm mod false exF) out1 new1 :=
          hfa1.imp (fun ent fname hp => Or.inr ⟨rfl, nm, c, hv, hp.1, hp.2⟩)
        cases e1 with
        | some err =>
          simp [scanModuleAux, hv, hcl] at h
          obtain ⟨hst, hseen, hout, he⟩ := h
          exact ⟨new1, by rw [← hseen, heq1], heq1 ▸ hnd1, hout ▸ hfa1'⟩
        | none =>
          rcases hrec : scanModuleAux nameOf mod false exF st1 seen1 rest with
            ⟨st2, seen2, out2, e3⟩
          obtain ⟨new2, heq2, hnd2, hfa2⟩ :=
            ih st1 seen1 st2 seen2 out2 e3 (heq1 ▸ hnd1) hrec
          simp [scanModuleAux, hv, hcl, hrec] at h
          obtain ⟨hst, hseen, hout, he⟩ := h
          refine ⟨new1 ++ new2, ?_, ?_, ?_⟩
          · rw [← hseen, heq2, heq1, List.append_assoc]
          · rw [← List.append_assoc]
            rw [heq1] at hnd2
            exact hnd2
          · rw [← hout]
            exact List.rel_append hfa1' hfa2
    | func fnid =>
      cases exF with
      | true =>
        exact ih st seen st' seen' out e2 hs
          (by simpa [scanModuleAux, hv, unwrapModVal] using h)
      | false =>
        rcases hgd : get_decorators (make_portable st fnid) fnid with ⟨st2, dso⟩
        cases dso with
        | none =>
          simp [scanModuleAux, hv, unwrapModVal, hgd] at h
          exact ⟨[], by simp [h.2.1.symm], by simpa using hs, by simp [h.2.2.1.symm]⟩
        | some ds =>
          by_cases hlen : ds.length > 0
          · rcases hnatv : (annots st2 fnid).native_function with _ | natid
            · simp [scanModuleAux, hv, unwrapModVal, hgd, hlen, hnatv] at h
              exact ⟨[], by simp [h.2.1.symm], by simpa using hs, by simp [h.2.2.1.symm]⟩
            · by_cases hseen : nameOf natid ∈ seen
              · exact ih st2 seen st' seen' out e2 hs
                  (by simpa [scanModuleAux, hv, unwrapModVal, hgd, hlen, hnatv, hseen] using h)
              · rcases hrec : scanModuleAux nameOf mod exM false st2
                    (seen ++ [nameOf natid]) rest with ⟨st3, seen3, out3, e3⟩
                simp [scanModuleAux, hv, unwrapModVal, hgd, hlen, hnatv, hseen, hrec] at h
                obtain ⟨hst, hseen3, hout, he⟩ := h
                obtain ⟨new', heq', hnd', hfa'⟩ :=
                  ih st2 (seen ++ [nameOf natid]) st3 seen3 out3 e3
                    (nodup_append_singleton hs hseen) hrec
                refine ⟨nameOf natid :: new', ?_, ?_, ?_⟩
                · rw [← hseen3, heq', List.append_assoc]
                  rfl
                · rw [show seen ++ nameOf natid :: new' = (seen ++ [nameOf natid]) ++ new' by
                    rw [List.append_assoc]; rfl]
                  exact hnd'
                · rw [← hout]
                  exact List.Forall₂.cons (Or.inl ⟨rfl, rfl, rfl⟩) hfa'
          · exact ih st2 seen st' seen' out e2 hs
              (by simpa [scanModuleAux, hv, unwrapModVal, hgd, hlen] using h)
    | staticm fnid =>
      cases exF with
      | true =>
        exact ih st seen st' seen' out e2 hs
          (by simpa [scanModuleAux, hv, unwrapModVal] using h)
      | false =>
        rcases hgd : get_decorators (make_portable st fnid) fnid with ⟨st2, dso⟩
        cases dso with
        | none =>
          simp [scanModuleAux, hv, unwrapModVal, hgd] at h
          exact ⟨[], by simp [h.2.1.symm], by simpa using hs, by simp [h.2.2.1.symm]⟩
        | some ds =>
          by_cases hlen : ds.length > 0
          · rcases hnatv : (annots st2 fnid).native_function with _ | natid
            · simp [scanModuleAux, hv, unwrapModVal, hgd, hlen, hnatv] at h
              exact ⟨[], by simp [h.2.1.symm], by simpa using hs, by simp [h.2.2.1.symm]⟩
            · by_cases hseen : nameOf natid ∈ seen
              · exact ih st2 seen st' seen' out e2 hs
                  (by simpa [scanModuleAux, hv, unwrapModVal, hgd, hlen, hnatv, hseen] using h)
              · rcases hrec : scanModuleAux nameOf mod exM false st2
                    (seen ++ [nameOf natid]) rest with ⟨st3, seen3, out3, e3⟩
                simp [scanModuleAux, hv, unwrapModVal, hgd, hlen, hnatv, hseen, hrec] at h
                obtain ⟨hst, hseen3, hout, he⟩ := h
                obtain ⟨new', heq', hnd', hfa'⟩ :=
                  ih st2 (seen ++ [nameOf natid]) st3 seen3 out3 e3
                    (nodup_append_singleton hs hseen) hrec
                refine ⟨nameOf natid :: new', ?_, ?_, ?_⟩
                · rw [← hseen3, heq', List.append_assoc]
                  rfl
                · rw [show seen ++ nameOf natid :: new' = (seen ++ [nameOf natid]) ++ new' by
                    rw [List.append_assoc]; rfl]
                  exact hnd'
                · rw [← hout]
                  exact List.Forall₂.cons (Or.inl ⟨rfl, rfl, rfl⟩) hfa'
          · exact ih st2 seen st' seen' out e2 hs
              (by simpa [scanModuleAux, hv, unwrapModVal, hgd, hlen] using h)
    | classm fnid =>
      cases exF with
      | true =>
        exact ih st seen st' seen' out e2 hs
          (by simpa [scanModuleAux, hv, unwrapModVal] using h)
      | false =>
        rcases hgd : get_decorators (make_portable st fnid) fnid with ⟨st2, dso⟩
        cases dso with
        | none =>
          simp [scanModuleAux, hv, unwrapModVal, hgd] at h
          exact ⟨[], by simp [h.2.1.symm], by simpa using hs, by simp [h.2.2.1.symm]⟩
        | some ds =>
          by_cases hlen : ds.length > 0
          · rcases hnatv : (annots st2 fnid).native_function with _ | natid
            · simp [scanModuleAux, hv, unwrapModVal, hgd, hlen, hnatv] at h
              exact ⟨[], by simp [h.2.1.symm], by simpa using hs, by simp [h.2.2.1.symm]⟩
            · by_cases hseen : nameOf natid ∈ seen
              · exact ih st2 seen st' seen' out e2 hs
                  (by simpa [scanModuleAux, hv, unwrapModVal, hgd, hlen, hnatv, hseen] using h)
              · rcases hrec : scanModuleAux nameOf mod exM false st2
                    (seen ++ [nameOf natid]) rest with ⟨st3, seen3, out3, e3⟩
                simp [scanModuleAux, hv, unwrapModVal, hgd, hlen, hnatv, hseen, hrec] at h
                obtain ⟨hst, hseen3, hout, he⟩ := h
                obtain ⟨new', heq', hnd', hfa'⟩ :=
                  ih st2 (seen ++ [nameOf natid]) st3 seen3 out3 e3
                    (nodup_append_singleton hs hseen) hrec
                refine ⟨nameOf natid :: new', ?_, ?_, ?_⟩
                · rw [← hseen3, heq', List.append_assoc]
                  rfl
                · rw [show seen ++ nameOf natid :: new' = (seen ++ [nameOf natid]) ++ new' by
                    rw [List.append_assoc]; rfl]
                  exact hnd'
                · rw [← hout]
                  exact List.Forall₂.cons (Or.inl ⟨rfl, rfl, rfl⟩) hfa'
          · exact ih st2 seen st' seen' out e2 hs
              (by simpa [scanModuleAux, hv, unwrapModVal, hgd, hlen] using h)
    | other =>
      exact ih st seen st' seen' out e2 hs
        (by simpa [scanModuleAux, hv, unwrapModVal] using h)

theorem forall₂_mem_left {α β : Type} {R : α → β → Prop} :
    ∀ {l₁ : List α} {l₂ : List β}, List.Forall₂ R l₁ l₂ → ∀ a ∈ l₁, ∃ b, R a b := by
  intro l₁ l₂ h
  induction h with
  | nil =>
    intro a ha
    cases ha
  | cons hr _ ih =>
    intro a ha
    rcases List.mem_cons.mp ha with rfl | ha'
    · exact ⟨_, hr⟩
    · exact ih a ha'

/-- C4: the module scan yields entries paired one to one with a duplicate-free
list of resolved names — so each decorated function, identified by its
resolved (native) name, is yielded at most once, a function referenced under
several aliases once in all.  Every entry is keyed `ClassName.resolvedName`
with the class's binding of the resolved name as value (method branch) or by
the bare resolved name with the module's binding as value (function branch);
`exclude_functions = true` suppresses every function-branch entry and
`exclude_methods = true` every method-branch entry, each flag independently of
the other. -/
theorem C4_module_scan_dedup_and_flags (nameOf : FnId → String) (st : Heap)
    (mod : PyModule) (exM exF : Bool) :
    (∃ names, names.Nodup ∧
      List.Forall₂ (EntryForm mod exM exF)
        (all_decorated_module_functions nameOf st mod exM exF).2.1 names) ∧
    (exF = true → ∀ ent ∈ (all_decorated_module_functions nameOf st mod exM exF).2.1,
      ∃ fname, MethodEntryForm mod fname ent) ∧
    (exM = true → ∀ ent ∈ (all_decorated_module_functions nameOf st mod exM exF).2.1,
      ∃ fname, FnEntryForm mod fname ent) := by
  unfold all_decorated_module_functions
  rcases h : scanModuleAux nameOf mod exM exF st [] (dirModule mod) with ⟨st1, seen1, out, e⟩
  obtain ⟨new, heq, hnd, hfa⟩ :=
    scanModuleAux_inv nameOf mod exM exF (dirModule mod) st [] st1 seen1 out e
      List.nodup_nil h
  refine ⟨⟨new, by simpa using hnd, by simpa using hfa⟩, ?_, ?_⟩
  · rintro rfl ent hent
    obtain ⟨fname, hform⟩ := forall₂_mem_left hfa ent (by simpa using hent)
    rcases hform with ⟨hfalse, -⟩ | ⟨-, hm⟩
    · cases hfalse
    · exact ⟨fname, hm⟩
  · rintro rfl ent hent
    obtain ⟨fname, hform⟩ := forall₂_mem_left hfa ent (by simpa using hent)
    rcases hform with ⟨-, hf⟩ | ⟨hfalse, -⟩
    · exact ⟨fname, hf⟩
    · cases hfalse

theorem C4_module_scan_dedup_and_flags_witness :
    ∃ fname, FnEntryForm modWrap fname ("f", some (ModVal.func 2)) :=
  (C4_module_scan_dedup_and_flags nmF stC1 modWrap true false).2.2 rfl
    ("f", some (ModVal.func 2)) (by decide)
